import Mathlib

/-!
Verification development for the incremental build engine of the InContext
content pipeline: the change-tracking cache (src/tracker.py), the fact store
and its query layer (src/service/store.py, src/service/website.py), the
classification dispatcher and the dynamic-dependency render cache
(src/plugins/commands/build.py).

Python dictionaries are modelled as association lists with insert-or-replace
semantics (replacement keeps the original position, as CPython dicts do).
File mtimes and dates are modelled as exact natural numbers.  The md5 digest
from hashlib (an external library) is idealized as an injective constructor
over the item list fed to utils.hash_items; this is the standard
collision-freeness idealization and also abstracts the struct.pack double
encoding of numeric items.
-/

namespace InContext

/-- Fingerprints as stored in the change-tracker cache (the mtime field of a
cache entry): either a raw file mtime (a number in the code) or an md5 hex
digest produced by utils.hash_items (a string in the code).  A digest is
represented as the right-nested chain of the items it was computed from
(mnil and mcons), which makes the idealized md5 injective by construction. -/
inductive Fingerprint where
  | num : Nat → Fingerprint
  | mnil : Fingerprint
  | mcons : Fingerprint → Fingerprint → Fingerprint
deriving DecidableEq, Repr

/-- utils.hash_items (src/utils.py lines 124-133): feeds every item (a float,
int, or utf-8 string) into one md5 instance and returns the hex digest.  The
items that appear in the repository are mtimes (numbers) and previously
computed digests (strings); md5 itself is external and idealized as an
injective digest of the item list. -/
def hash_items (items : List Fingerprint) : Fingerprint :=
  items.foldr Fingerprint.mcons Fingerprint.mnil

theorem hash_items_injective : Function.Injective hash_items := by
  intro as bs h
  induction as generalizing bs with
  | nil => cases bs with
    | nil => rfl
    | cons b bs => simp [hash_items] at h
  | cons a as ih => cases bs with
    | nil => simp [hash_items] at h
    | cons b bs =>
        simp only [hash_items, List.foldr] at h
        injection h with h1 h2
        have := ih h2
        simp [*]

/-- Insert-or-replace into an association list, with CPython dict semantics:
assigning to an existing key keeps its position and replaces the value,
assigning a new key appends. -/
def dictInsert {α β : Type} [DecidableEq α] (k : α) (v : β) :
    List (α × β) → List (α × β)
  | [] => [(k, v)]
  | (k₀, v₀) :: rest =>
      if k₀ = k then (k, v) :: rest else (k₀, v₀) :: dictInsert k v rest

/-- Remove a key from an association list (del d[k] on a dict). -/
def dictErase {α β : Type} [DecidableEq α] (k : α) :
    List (α × β) → List (α × β)
  | [] => []
  | (k₀, v₀) :: rest =>
      if k₀ = k then rest else (k₀, v₀) :: dictErase k rest

/-- Lookup in an association list (d[k] on a dict, None when absent). -/
def dictGet {α β : Type} [DecidableEq α] (k : α) :
    List (α × β) → Option β
  | [] => none
  | (k₀, v₀) :: rest => if k₀ = k then some v₀ else dictGet k rest

/-- The query parameter dictionaries built by DocumentWrapper
(src/service/website.py lines 224-307): the type field selects the shape and
the remaining keys are as in the code.  The queries dictionary of a render is
keyed by js.dumps of these parameters; since js.dumps is injective on such
dictionaries the parameters themselves serve as keys here.  The posts shape
also covers a parameter dictionary with no type key (treated identically by
run_query).  The sort key is optional ("ascending" means ascending, any
other value descending, absent defaults to ascending). -/
inductive QueryParams where
  | posts (incl excl : Option (List String)) (sort : Option String)
  | children (parent : String) (sort : Option String)
  | post (url : String)
  | siblings (parent : Option String)
  | previous (parent : Option String)
  | next (parent : Option String)
deriving DecidableEq, Repr

/-- The info payload returned by a build action (a JSON dictionary in the
code).  The keys the repository reads are files, urls, queries and mtime.
For files, urls and queries an absent key behaves like an empty list in
every consumer (the cleanup loops and the queries round trip), so absence is
modelled as the empty list; for mtime the presence of the key is significant
(src/tracker.py line 57), so it is an Option. -/
structure Info where
  files : List String := []
  urls : List String := []
  queries : List (QueryParams × Fingerprint) := []
  mtimeVal : Option Fingerprint := none
deriving DecidableEq, Repr

/-- One cache entry of a ChangeTracker: the persisted JSON is
path to mapsto of a dictionary with keys mtime and info. -/
structure Entry where
  mtime : Fingerprint
  info : Info
deriving DecidableEq, Repr

/-- The persisted cache map of a ChangeTracker. -/
abbrev Cache : Type := List (String × Entry)

/-- A build action enqueued by ChangeTracker.add (the action closure at
src/tracker.py lines 55-58): it captures the path, the create callback and
the mtime argument that was passed to add. -/
structure PendingAction where
  path : String
  create : String → Except String Info
  mtimeArg : Fingerprint

/-- In-memory state of a ChangeTracker (src/tracker.py lines 30-44): the
cache map, the deletions map (a deep copy of the cache made at init time)
and the queue of pending build actions. -/
structure Tracker where
  cache : Cache
  deletions : Cache
  actions : List PendingAction

/-- ChangeTracker state right after loading a readable cache file holding
the map c: deletions is a deep copy of the cache and no action is queued. -/
def Tracker.fromCache (c : Cache) : Tracker :=
  { cache := c, deletions := c, actions := [] }

/-- ChangeTracker construction (src/tracker.py lines 32-40).  The file
system is a map from paths to file contents; a file that exists is modelled
by the outcome of running json.load on it (the json module is external), so
some (Except.ok c) is a readable cache file holding c and
some (Except.error e) is a file that exists but is not valid JSON, on which
json.load raises.  The constructor checks os.path.exists and then parses
unconditionally, so the parse error propagates. -/
def openTracker (fs : String → Option (Except String Cache)) (path : String) :
    Except String Tracker :=
  match fs path with
  | none => Except.ok (Tracker.fromCache [])
  | some (Except.ok c) => Except.ok (Tracker.fromCache c)
  | some (Except.error e) => Except.error e

/-- ChangeTracker.add (src/tracker.py lines 46-58) with the mtime argument
already resolved (a caller passing mtime=None makes add read the mtime of
path from the file system; both call sites are modelled by passing the
resolved value).  If the path is present in the deletions map and the cache
entry carries an identical fingerprint the path is marked still present and
nothing is enqueued; otherwise a build action is enqueued for commit time. -/
def Tracker.add (t : Tracker) (path : String)
    (create : String → Except String Info) (mtime : Fingerprint) : Tracker :=
  if (dictGet path t.deletions).isSome ∧
      (dictGet path t.cache).map Entry.mtime = some mtime then
    { t with deletions := dictErase path t.deletions }
  else
    { t with actions := t.actions ++ [⟨path, create, mtime⟩] }

/-- The cache entry written by a build action (src/tracker.py line 57): the
fingerprint stored is info mtime when the returned info dictionary has an
mtime key, and the mtime argument given to add otherwise. -/
def newEntry (info : Info) (mtimeArg : Fingerprint) : Entry :=
  { mtime := match info.mtimeVal with
      | some m => m
      | none => mtimeArg,
    info := info }

/-- Run the queued build actions in order (src/tracker.py lines 73-76),
threading the cache; the first exception propagates.  Also returns the log
of executed actions with the info each returned. -/
def runActions : List PendingAction → Cache →
    Except String (Cache × List (String × Info))
  | [], c => Except.ok (c, [])
  | a :: rest, c =>
    match a.create a.path with
    | Except.error e => Except.error e
    | Except.ok info =>
      match runActions rest (dictInsert a.path (newEntry info a.mtimeArg) c) with
      | Except.error e => Except.error e
      | Except.ok (cf, log) => Except.ok (cf, (a.path, info) :: log)

/-- The cleanup loop of commit (src/tracker.py lines 68-72): for every path
still in the deletions map, pass the info of its cache entry to the cleanup
callback and delete the entry.  The code reads self cache at path; the
deletions map is a deep copy of the initial cache and neither map is
modified between init and commit, so the copied entry equals the cache
entry and its info is what gets logged. -/
def runCleanups (dels : Cache) (c : Cache) : Cache × List Info :=
  dels.foldl (fun acc pe => (dictErase pe.1 acc.1, acc.2 ++ [pe.2.info])) (c, [])

/-- Outcome of a successful commit: the cache map that gets persisted by
save, the infos passed to the cleanup callback in order, and the executed
build actions with their returned infos in order. -/
structure CommitResult where
  cache : Cache
  cleanups : List Info
  ran : List (String × Info)
deriving Repr

/-- ChangeTracker.commit (src/tracker.py lines 67-77): run the cleanups,
then the queued build actions in order, then persist; an exception from a
build action propagates and save is never reached. -/
def Tracker.commit (t : Tracker) : Except String CommitResult :=
  let cleaned := runCleanups t.deletions t.cache
  match runActions t.actions cleaned.1 with
  | Except.error e => Except.error e
  | Except.ok (c2, log) => Except.ok ⟨c2, cleaned.2, log⟩

/-- Contents of the persisted cache file after a commit attempt, starting
from a previously persisted map prev: save (src/tracker.py lines 42-44)
runs exactly once, at the very end of commit, so a failing commit leaves
the previously persisted file untouched. -/
def persistedAfterCommit (prev : Cache) (t : Tracker) : Cache :=
  match t.commit with
  | Except.ok r => r.cache
  | Except.error _ => prev

/-- One reconcile pass over a tracker loaded from the persisted map p: call
add for every request in order (as Phase.process and the render loop do)
and then commit. -/
def runBuild (p : Cache) (inputs : List PendingAction) :
    Except String CommitResult :=
  (inputs.foldl (fun t i => t.add i.path i.create i.mtimeArg)
    (Tracker.fromCache p)).commit

/-- An add with this request hits the still-present branch when folded over
a fresh tracker whose cache is c (the deletions map agrees with c on the
request path at that point): the cached fingerprint equals the one passed. -/
def skips (c : Cache) (a : PendingAction) : Bool :=
  decide ((dictGet a.path c).map Entry.mtime = some a.mtimeArg)

theorem dictGet_insert_self {α β : Type} [DecidableEq α] (k : α) (v : β)
    (d : List (α × β)) : dictGet k (dictInsert k v d) = some v := by
  induction d with
  | nil => simp [dictInsert, dictGet]
  | cons kv rest ih =>
      obtain ⟨k₀, v₀⟩ := kv
      by_cases h : k₀ = k
      · simp [dictInsert, dictGet, h]
      · simpa [dictInsert, dictGet, h] using ih

theorem dictGet_insert_ne {α β : Type} [DecidableEq α] (k p : α) (v : β)
    (d : List (α × β)) (h : p ≠ k) :
    dictGet p (dictInsert k v d) = dictGet p d := by
  induction d with
  | nil =>
      simp only [dictInsert, dictGet]
      rw [if_neg (Ne.symm h)]
  | cons kv rest ih =>
      obtain ⟨k₀, v₀⟩ := kv
      by_cases hk : k₀ = k
      · subst hk
        simp [dictInsert, dictGet, Ne.symm h]
      · by_cases hp : k₀ = p <;>
          simp [dictInsert, dictGet, hk, hp, ih, h]

theorem dictErase_sublist {α β : Type} [DecidableEq α] (k : α)
    (d : List (α × β)) : (dictErase k d).Sublist d := by
  induction d with
  | nil => simp [dictErase]
  | cons kv rest ih =>
      obtain ⟨k₀, v₀⟩ := kv
      by_cases h : k₀ = k
      · simp only [dictErase, if_pos h]
        exact List.sublist_cons_self (k₀, v₀) rest
      · simp only [dictErase, if_neg h]
        exact ih.cons₂ (k₀, v₀)

theorem dictGet_erase_ne {α β : Type} [DecidableEq α] (k p : α)
    (d : List (α × β)) (h : p ≠ k) :
    dictGet p (dictErase k d) = dictGet p d := by
  induction d with
  | nil => simp [dictErase]
  | cons kv rest ih =>
      obtain ⟨k₀, v₀⟩ := kv
      by_cases hk : k₀ = k
      · subst hk
        simp [dictErase, dictGet, Ne.symm h]
      · by_cases hp : k₀ = p <;>
          simp [dictErase, dictGet, hk, hp, ih, h]

theorem dictGet_eq_none_iff {α β : Type} [DecidableEq α] (k : α)
    (d : List (α × β)) : dictGet k d = none ↔ k ∉ d.map Prod.fst := by
  induction d with
  | nil => simp [dictGet]
  | cons kv rest ih =>
      obtain ⟨k₀, v₀⟩ := kv
      by_cases h : k₀ = k
      · simp [dictGet, h]
      · simp [dictGet, h, ih, Ne.symm h]

theorem dictErase_eq_filter {α β : Type} [DecidableEq α] (k : α)
    (d : List (α × β)) (h : (d.map Prod.fst).Nodup) :
    dictErase k d = d.filter (fun kv => !decide (kv.1 = k)) := by
  induction d with
  | nil => simp [dictErase]
  | cons kv rest ih =>
      obtain ⟨k₀, v₀⟩ := kv
      simp only [List.map_cons, List.nodup_cons] at h
      by_cases hk : k₀ = k
      · subst hk
        have hrest : rest.filter (fun kv => !decide (kv.1 = k₀)) = rest := by
          apply List.filter_eq_self.mpr
          intro a ha
          have hne : a.1 ≠ k₀ := by
            intro hak
            exact h.1 (hak ▸ (List.mem_map_of_mem Prod.fst ha))
          simpa using hne
        simp [dictErase, hrest]
      · simp [dictErase, hk, ih h.2]

theorem keysNodup_erase {α β : Type} [DecidableEq α] (k : α)
    (d : List (α × β)) (h : (d.map Prod.fst).Nodup) :
    ((dictErase k d).map Prod.fst).Nodup :=
  ((dictErase_sublist k d).map Prod.fst).nodup h

/-- Folding ChangeTracker.add over a list of requests with pairwise distinct
paths, starting from a tracker whose deletions map agrees with its cache on
every request path (as is the case for a freshly opened tracker): the cache
is untouched, the requests whose fingerprint differs from the cached one (or
whose path is uncached) are enqueued in order, and exactly the cache entries
of skipped requests leave the deletions map. -/
theorem foldAdd_spec (c : Cache) (inputs : List PendingAction) :
    ∀ (t₀ : Tracker), t₀.cache = c →
    (∀ i ∈ inputs, dictGet i.path t₀.deletions = dictGet i.path c) →
    ((inputs.map PendingAction.path).Nodup) →
    ((t₀.deletions.map Prod.fst).Nodup) →
    (inputs.foldl (fun t i => t.add i.path i.create i.mtimeArg) t₀).cache = c ∧
    (inputs.foldl (fun t i => t.add i.path i.create i.mtimeArg) t₀).actions =
      t₀.actions ++ inputs.filter (fun i => !(skips c i)) ∧
    (inputs.foldl (fun t i => t.add i.path i.create i.mtimeArg) t₀).deletions =
      t₀.deletions.filter
        (fun kv => !(inputs.any (fun i => skips c i && decide (i.path = kv.1)))) := by
  induction inputs with
  | nil =>
      intro t₀ hc _ _ _
      refine ⟨hc, by simp, ?_⟩
      simp
  | cons i rest ih =>
      intro t₀ hc hdel hnd hkeys
      simp only [List.map_cons, List.nodup_cons] at hnd
      have hndrest : (rest.map PendingAction.path).Nodup := hnd.2
      have hipath : i.path ∉ rest.map PendingAction.path := hnd.1
      simp only [List.foldl_cons]
      by_cases hs : skips c i = true
      · -- the still-present branch: the deletion mark is removed, nothing enqueued
        have hmt : (dictGet i.path c).map Entry.mtime = some i.mtimeArg := by
          simpa [skips] using hs
        have hcond : (dictGet i.path t₀.deletions).isSome ∧
            (dictGet i.path t₀.cache).map Entry.mtime = some i.mtimeArg := by
          constructor
          · rw [hdel i (by simp)]
            cases hg : dictGet i.path c with
            | none => rw [hg] at hmt; simp at hmt
            | some e => simp
          · rw [hc]; exact hmt
        have hadd : t₀.add i.path i.create i.mtimeArg =
            { t₀ with deletions := dictErase i.path t₀.deletions } := by
          unfold Tracker.add
          rw [if_pos hcond]
        rw [hadd]
        have hdel' : ∀ j ∈ rest, dictGet j.path (dictErase i.path t₀.deletions) =
            dictGet j.path c := by
          intro j hj
          have hne : j.path ≠ i.path := by
            intro he
            exact hipath (he ▸ List.mem_map_of_mem PendingAction.path hj)
          rw [dictGet_erase_ne _ _ _ hne, hdel j (by simp [hj])]
        obtain ⟨g1, g2, g3⟩ := ih { t₀ with deletions := dictErase i.path t₀.deletions }
          hc hdel' hndrest (keysNodup_erase _ _ hkeys)
        refine ⟨g1, ?_, ?_⟩
        · rw [g2]
          simp [List.filter_cons, hs]
        · rw [g3]
          show (dictErase i.path t₀.deletions).filter _ = _
          rw [dictErase_eq_filter _ _ hkeys, List.filter_filter]
          apply List.filter_congr
          intro kv _
          by_cases hdec : i.path = kv.1
          · simp [List.any_cons, hs, hdec]
          · simp [List.any_cons, hs, hdec, Ne.symm hdec]
      · -- the fingerprint differs or the path is new: a build action is enqueued
        have hs' : ¬ ((dictGet i.path c).map Entry.mtime = some i.mtimeArg) := by
          simpa [skips] using hs
        have hncond : ¬ ((dictGet i.path t₀.deletions).isSome ∧
            (dictGet i.path t₀.cache).map Entry.mtime = some i.mtimeArg) := by
          rw [hc]
          exact fun hcon => hs' hcon.2
        have hadd : t₀.add i.path i.create i.mtimeArg =
            { t₀ with actions := t₀.actions ++ [⟨i.path, i.create, i.mtimeArg⟩] } := by
          unfold Tracker.add
          rw [if_neg hncond]
        rw [hadd]
        have hdel' : ∀ j ∈ rest, dictGet j.path t₀.deletions = dictGet j.path c :=
          fun j hj => hdel j (by simp [hj])
        obtain ⟨g1, g2, g3⟩ := ih
          { t₀ with actions := t₀.actions ++ [⟨i.path, i.create, i.mtimeArg⟩] }
          hc hdel' hndrest hkeys
        refine ⟨g1, ?_, ?_⟩
        · rw [g2]
          simp [List.filter_cons, hs]
        · rw [g3]
          apply List.filter_congr
          intro kv _
          simp [List.any_cons, Bool.not_or, hs]

theorem runCleanups_fold (dels : Cache) : ∀ (c : Cache) (log : List Info),
    dels.foldl (fun acc pe => (dictErase pe.1 acc.1, acc.2 ++ [pe.2.info])) (c, log) =
      (dels.foldl (fun a pe => dictErase pe.1 a) c,
       log ++ dels.map (fun pe => pe.2.info)) := by
  induction dels with
  | nil => intro c log; simp
  | cons pe rest ih =>
      intro c log
      simp [List.foldl_cons, ih]

theorem runCleanups_eq (dels : Cache) (c : Cache) :
    runCleanups dels c =
      (dels.foldl (fun a pe => dictErase pe.1 a) c,
       dels.map (fun pe => pe.2.info)) := by
  unfold runCleanups
  simpa using runCleanups_fold dels c []

theorem dictGet_eraseFold_not_mem (dels : Cache) :
    ∀ (c : Cache) (p : String), p ∉ dels.map Prod.fst →
    dictGet p (dels.foldl (fun a pe => dictErase pe.1 a) c) = dictGet p c := by
  induction dels with
  | nil => intro c p _; rfl
  | cons pe rest ih =>
      intro c p hp
      simp only [List.map_cons, List.mem_cons] at hp
      push_neg at hp
      rw [List.foldl_cons, ih (dictErase pe.1 c) p hp.2,
        dictGet_erase_ne pe.1 p c hp.1]

theorem dictGet_erase_none {α β : Type} [DecidableEq α] (k p : α)
    (d : List (α × β)) (h : dictGet p d = none) :
    dictGet p (dictErase k d) = none := by
  rw [dictGet_eq_none_iff] at h ⊢
  intro hmem
  exact h (((dictErase_sublist k d).map Prod.fst).mem hmem)

theorem dictGet_eraseFold_none (dels : Cache) :
    ∀ (c : Cache) (p : String), dictGet p c = none →
    dictGet p (dels.foldl (fun a pe => dictErase pe.1 a) c) = none := by
  induction dels with
  | nil => intro c p h; exact h
  | cons pe rest ih =>
      intro c p h
      exact ih (dictErase pe.1 c) p (dictGet_erase_none pe.1 p c h)

theorem dictGet_erase_self {α β : Type} [DecidableEq α] (k : α)
    (d : List (α × β)) (h : (d.map Prod.fst).Nodup) :
    dictGet k (dictErase k d) = none := by
  rw [dictErase_eq_filter k d h, dictGet_eq_none_iff]
  intro hmem
  obtain ⟨kv, hkv, hfst⟩ := List.mem_map.mp hmem
  have := List.of_mem_filter hkv
  simp [hfst] at this

theorem dictGet_eraseFold_mem (dels : Cache) :
    ∀ (c : Cache) (p : String), (c.map Prod.fst).Nodup →
    p ∈ dels.map Prod.fst →
    dictGet p (dels.foldl (fun a pe => dictErase pe.1 a) c) = none := by
  induction dels with
  | nil => intro c p _ h; simp at h
  | cons pe rest ih =>
      intro c p hkeys hp
      rw [List.foldl_cons]
      by_cases he : p = pe.1
      · subst he
        exact dictGet_eraseFold_none rest (dictErase pe.1 c) pe.1
          (dictGet_erase_self pe.1 c hkeys)
      · have hp' : p ∈ rest.map Prod.fst := by
          simpa [he] using hp
        exact ih (dictErase pe.1 c) p (keysNodup_erase pe.1 c hkeys) hp'

theorem runActions_cons_ok (a : PendingAction) (rest : List PendingAction)
    (c cf : Cache) (log : List (String × Info))
    (h : runActions (a :: rest) c = Except.ok (cf, log)) :
    ∃ v log', a.create a.path = Except.ok v ∧
      runActions rest (dictInsert a.path (newEntry v a.mtimeArg) c) =
        Except.ok (cf, log') ∧
      log = (a.path, v) :: log' := by
  cases hv : a.create a.path with
  | error e =>
      have h' : runActions (a :: rest) c = Except.error e := by
        simp only [runActions, hv]
      rw [h'] at h
      exact absurd h (by simp)
  | ok v =>
      cases hr : runActions rest (dictInsert a.path (newEntry v a.mtimeArg) c) with
      | error e =>
          have h' : runActions (a :: rest) c = Except.error e := by
            simp only [runActions, hv, hr]
          rw [h'] at h
          exact absurd h (by simp)
      | ok pr =>
          obtain ⟨cf', log'⟩ := pr
          have h' : runActions (a :: rest) c =
              Except.ok (cf', (a.path, v) :: log') := by
            simp only [runActions, hv, hr]
          rw [h'] at h
          cases h
          exact ⟨v, log', rfl, hr, rfl⟩

theorem runActions_log (acts : List PendingAction) :
    ∀ (c cf : Cache) (log : List (String × Info)),
    runActions acts c = Except.ok (cf, log) →
    log.map Prod.fst = acts.map PendingAction.path := by
  induction acts with
  | nil =>
      intro c cf log h
      simp only [runActions] at h
      cases h
      rfl
  | cons a rest ih =>
      intro c cf log h
      obtain ⟨v, log', hv, hr, hlog⟩ := runActions_cons_ok a rest c cf log h
      subst hlog
      simp [ih _ _ _ hr]

theorem runActions_dictGet_not_mem (acts : List PendingAction) :
    ∀ (c cf : Cache) (log : List (String × Info)),
    runActions acts c = Except.ok (cf, log) →
    ∀ p, p ∉ acts.map PendingAction.path → dictGet p cf = dictGet p c := by
  induction acts with
  | nil =>
      intro c cf log h p _
      simp only [runActions] at h
      cases h
      rfl
  | cons a rest ih =>
      intro c cf log h p hp
      simp only [List.map_cons, List.mem_cons] at hp
      push_neg at hp
      obtain ⟨v, log', hv, hr, hlog⟩ := runActions_cons_ok a rest c cf log h
      rw [ih _ _ _ hr p hp.2,
        dictGet_insert_ne a.path p (newEntry v a.mtimeArg) c hp.1]

theorem runActions_ok (acts : List PendingAction) :
    ∀ (c : Cache), (∀ a ∈ acts, ∃ v, a.create a.path = Except.ok v) →
    ∃ cf log, runActions acts c = Except.ok (cf, log) := by
  induction acts with
  | nil => intro c _; exact ⟨c, [], rfl⟩
  | cons a rest ih =>
      intro c hok
      obtain ⟨v, hv⟩ := hok a (by simp)
      obtain ⟨cf, log, hr⟩ := ih (dictInsert a.path (newEntry v a.mtimeArg) c)
        (fun b hb => hok b (by simp [hb]))
      exact ⟨cf, (a.path, v) :: log, by simp only [runActions, hv, hr]⟩

theorem runActions_lookup_last (pre : List PendingAction) (a : PendingAction)
    (post : List PendingAction) :
    ∀ (c cf : Cache) (log : List (String × Info)) (v : Info),
    runActions (pre ++ a :: post) c = Except.ok (cf, log) →
    (∀ b ∈ post, b.path ≠ a.path) →
    a.create a.path = Except.ok v →
    dictGet a.path cf = some (newEntry v a.mtimeArg) ∧ (a.path, v) ∈ log := by
  induction pre with
  | nil =>
      intro c cf log v h hpost hv
      rw [List.nil_append] at h
      obtain ⟨v', log', hv', hr, hlog⟩ := runActions_cons_ok a post c cf log h
      have hvv : v' = v := by
        have := hv.symm.trans hv'
        exact (Except.ok.injEq _ _ ▸ this).symm
      subst hvv
      subst hlog
      constructor
      · rw [runActions_dictGet_not_mem post _ _ _ hr a.path
          (fun hmem => by
            obtain ⟨b, hb, hbp⟩ := List.mem_map.mp hmem
            exact hpost b hb hbp)]
        exact dictGet_insert_self a.path (newEntry v' a.mtimeArg) c
      · simp
  | cons b pre' ih =>
      intro c cf log v h hpost hv
      rw [List.cons_append] at h
      obtain ⟨w, log', hw, hr, hlog⟩ := runActions_cons_ok b (pre' ++ a :: post) c cf log h
      subst hlog
      obtain ⟨h1, h2⟩ := ih _ _ _ v hr hpost hv
      exact ⟨h1, by simp [h2]⟩

theorem runActions_error (pre : List PendingAction) (bad : PendingAction)
    (rest : List PendingAction) :
    ∀ (c : Cache) (e : String),
    (∀ a ∈ pre, ∃ v, a.create a.path = Except.ok v) →
    bad.create bad.path = Except.error e →
    runActions (pre ++ bad :: rest) c = Except.error e := by
  induction pre with
  | nil =>
      intro c e _ hbad
      simp only [List.nil_append, runActions, hbad]
  | cons a pre' ih =>
      intro c e hok hbad
      obtain ⟨v, hv⟩ := hok a (by simp)
      have hrec := ih (dictInsert a.path (newEntry v a.mtimeArg) c) e
        (fun b hb => hok b (by simp [hb])) hbad
      rw [List.cons_append]
      simp only [runActions, hv, hrec]

theorem Tracker.commit_def (t : Tracker) :
    t.commit =
      match runActions t.actions (runCleanups t.deletions t.cache).1 with
      | Except.error e => Except.error e
      | Except.ok (c2, log) =>
          Except.ok ⟨c2, (runCleanups t.deletions t.cache).2, log⟩ := rfl

/-- C2: for every path present in the prior persisted cache with a
fingerprint identical to the one passed to ChangeTracker.add, add marks it
still present and enqueues no build action; consequently a second build over
the same inputs with unchanged fingerprints (every add request matches its
cache entry and every cached path is requested again) runs zero build
actions and zero cleanup invocations at commit, and the persisted cache is
unchanged. -/
theorem c2_second_build_noop (p : Cache) (inputs : List PendingAction)
    (hnd : (inputs.map PendingAction.path).Nodup)
    (hkeys : (p.map Prod.fst).Nodup)
    (hfp : ∀ i ∈ inputs, (dictGet i.path p).map Entry.mtime = some i.mtimeArg)
    (hcover : ∀ k ∈ p.map Prod.fst, k ∈ inputs.map PendingAction.path) :
    runBuild p inputs = Except.ok ⟨p, [], []⟩ := by
  obtain ⟨hc, ha, hd⟩ := foldAdd_spec p inputs (Tracker.fromCache p) rfl
    (fun i _ => rfl) hnd hkeys
  have hskip : ∀ i ∈ inputs, skips p i = true := by
    intro i hi
    simp [skips, hfp i hi]
  have ha' : (inputs.foldl (fun t i => t.add i.path i.create i.mtimeArg)
      (Tracker.fromCache p)).actions = [] := by
    rw [ha]
    show [] ++ _ = _
    rw [List.nil_append]
    apply List.filter_eq_nil_iff.mpr
    intro i hi
    simp [hskip i hi]
  have hd' : (inputs.foldl (fun t i => t.add i.path i.create i.mtimeArg)
      (Tracker.fromCache p)).deletions = [] := by
    rw [hd]
    show List.filter _ p = []
    apply List.filter_eq_nil_iff.mpr
    intro kv hkv
    have hk : kv.1 ∈ p.map Prod.fst := List.mem_map_of_mem Prod.fst hkv
    obtain ⟨i, hi, hip⟩ := List.mem_map.mp (hcover kv.1 hk)
    have hany : inputs.any (fun i => skips p i && decide (i.path = kv.1)) = true :=
      List.any_eq_true.mpr ⟨i, hi, by simp [hskip i hi, hip]⟩
    simp [hany]
  show (inputs.foldl (fun t i => t.add i.path i.create i.mtimeArg)
      (Tracker.fromCache p)).commit = _
  rw [Tracker.commit_def, ha', hd', hc]
  rfl

/-- C3: starting from a cache containing exactly one entry for a source
path, a subsequent pass in which add is never called for that path causes
commit to invoke the cleanup callback exactly once with that entry's last
recorded info, and afterwards no cache entry remains for that path. -/
theorem c3_deletion_cleanup (pa : String) (e : Entry)
    (inputs : List PendingAction)
    (hnd : (inputs.map PendingAction.path).Nodup)
    (hnotpa : ∀ i ∈ inputs, i.path ≠ pa)
    (hok : ∀ i ∈ inputs, ∃ v, i.create i.path = Except.ok v) :
    ∃ r, runBuild [(pa, e)] inputs = Except.ok r ∧
      r.cleanups = [e.info] ∧ dictGet pa r.cache = none := by
  obtain ⟨hc, ha, hd⟩ := foldAdd_spec [(pa, e)] inputs
    (Tracker.fromCache [(pa, e)]) rfl (fun i _ => rfl) hnd
    (by simp [Tracker.fromCache])
  have hnoskip : ∀ i ∈ inputs, skips [(pa, e)] i = false := by
    intro i hi
    have hne : ¬ (pa = i.path) := fun h => hnotpa i hi h.symm
    have : dictGet i.path [(pa, e)] = none := by
      simp [dictGet, hne]
    simp [skips, this]
  have ha' : (inputs.foldl (fun t i => t.add i.path i.create i.mtimeArg)
      (Tracker.fromCache [(pa, e)])).actions = inputs := by
    rw [ha]
    show [] ++ _ = _
    rw [List.nil_append]
    apply List.filter_eq_self.mpr
    intro i hi
    simp [hnoskip i hi]
  have hd' : (inputs.foldl (fun t i => t.add i.path i.create i.mtimeArg)
      (Tracker.fromCache [(pa, e)])).deletions = [(pa, e)] := by
    rw [hd]
    show List.filter _ [(pa, e)] = _
    have hany : inputs.any (fun i => skips [(pa, e)] i && decide (i.path = pa)) = false := by
      apply List.any_eq_false.mpr
      intro i hi
      simp [hnoskip i hi]
    simp [List.filter, hany]
  obtain ⟨cf, log, hrun⟩ := runActions_ok inputs
    ((runCleanups [(pa, e)] [(pa, e)]).1) hok
  refine ⟨⟨cf, (runCleanups [(pa, e)] [(pa, e)]).2, log⟩, ?_, ?_, ?_⟩
  · show (inputs.foldl (fun t i => t.add i.path i.create i.mtimeArg)
        (Tracker.fromCache [(pa, e)])).commit = _
    rw [Tracker.commit_def, ha', hd', hc, hrun]
  · simp [runCleanups_eq]
  · rw [runActions_dictGet_not_mem inputs _ _ _ hrun pa
      (fun hmem => by
        obtain ⟨i, hi, hip⟩ := List.mem_map.mp hmem
        exact hnotpa i hi hip)]
    rw [runCleanups_eq]
    show dictGet pa (dictErase pa [(pa, e)]) = none
    simp [dictErase, dictGet]

/-- C6: for every commit in which some enqueued build action raises (all
actions before it succeeding), the exception propagates out of commit, and
the persisted cache file is not written for that batch: the previously
persisted cache remains authoritative, because save runs only once, after
all cleanups and all build actions have completed. -/
theorem c6_commit_atomic_on_failure (t : Tracker) (prev : Cache)
    (pre : List PendingAction) (bad : PendingAction)
    (rest : List PendingAction) (e : String)
    (hacts : t.actions = pre ++ bad :: rest)
    (hok : ∀ a ∈ pre, ∃ v, a.create a.path = Except.ok v)
    (hbad : bad.create bad.path = Except.error e) :
    t.commit = Except.error e ∧ persistedAfterCommit prev t = prev := by
  have hrun := runActions_error pre bad rest
    (runCleanups t.deletions t.cache).1 e hok hbad
  have hcommit : t.commit = Except.error e := by
    rw [Tracker.commit_def, hacts, hrun]
  refine ⟨hcommit, ?_⟩
  unfold persistedAfterCommit
  rw [hcommit]

/-- C7 counterexample: the claim says a cache file that exists but is
unreadable (not valid JSON) yields an empty in-memory cache and never
raises; in the code json.load runs unguarded whenever the file exists, so
its parse error propagates out of the constructor. -/
theorem c7_counterexample :
    ¬ (∀ (fs : String → Option (Except String Cache)) (path : String),
        ∃ t, openTracker fs path = Except.ok t ∧ t.cache = []) := by
  intro h
  obtain ⟨t, ht, _⟩ := h (fun _ => some (Except.error "invalid json")) "cache.json"
  simp [openTracker] at ht

/-- C7 amended: constructing a ChangeTracker with a missing cache file
yields an empty in-memory cache and never raises; a file that exists and
parses yields its map; but a file that exists and is unreadable (not valid
JSON) makes the constructor raise the parse error. -/
theorem c7_missing_cache_soft_fail
    (fs : String → Option (Except String Cache)) (path : String) :
    (fs path = none → openTracker fs path = Except.ok (Tracker.fromCache [])) ∧
    (∀ c, fs path = some (Except.ok c) →
      openTracker fs path = Except.ok (Tracker.fromCache c)) ∧
    (∀ e, fs path = some (Except.error e) →
      openTracker fs path = Except.error e) := by
  refine ⟨?_, ?_, ?_⟩
  · intro h
    simp [openTracker, h]
  · intro c h
    simp [openTracker, h]
  · intro e h
    simp [openTracker, h]

/-- C7 witness: the amended statement applied to a concrete missing file
and a concrete unreadable file. -/
theorem c7_missing_cache_soft_fail_witness :
    openTracker (fun _ => none) "cache.json" =
      Except.ok (Tracker.fromCache []) ∧
    openTracker (fun _ => some (Except.error "bad")) "cache.json" =
      Except.error "bad" :=
  ⟨(c7_missing_cache_soft_fail (fun _ => none) "cache.json").1 rfl,
   (c7_missing_cache_soft_fail (fun _ => some (Except.error "bad"))
      "cache.json").2.2 "bad" rfl⟩

/-- C10: when the enqueued build action returns an info dictionary that
contains an mtime key, the new cache entry persists info mtime as its
fingerprint, not the fingerprint that was passed to add; only when the
returned info lacks an mtime key is the passed fingerprint persisted. -/
theorem c10_info_mtime_overrides (c : Cache) (path : String)
    (create : String → Except String Info) (fp : Fingerprint) (info : Info)
    (hinfo : create path = Except.ok info)
    (hmiss : ¬ ((dictGet path c).map Entry.mtime = some fp)) :
    ∃ r, runBuild c [⟨path, create, fp⟩] = Except.ok r ∧
      ∃ en, dictGet path r.cache = some en ∧ en.info = info ∧
        (∀ m, info.mtimeVal = some m → en.mtime = m) ∧
        (info.mtimeVal = none → en.mtime = fp) := by
  have hadd : (Tracker.fromCache c).add path create fp =
      ⟨c, c, [⟨path, create, fp⟩]⟩ := by
    unfold Tracker.add
    rw [if_neg (fun hcon => hmiss hcon.2)]
    rfl
  have hact : runActions [⟨path, create, fp⟩] (runCleanups c c).1 =
      Except.ok (dictInsert path (newEntry info fp) (runCleanups c c).1,
        [(path, info)]) := by
    simp only [runActions, hinfo]
  refine ⟨⟨dictInsert path (newEntry info fp) (runCleanups c c).1,
    (runCleanups c c).2, [(path, info)]⟩, ?_, newEntry info fp, ?_, rfl, ?_, ?_⟩
  · show ((Tracker.fromCache c).add path create fp).commit = _
    rw [hadd, Tracker.commit_def]
    dsimp only
    rw [hact]
  · exact dictGet_insert_self path (newEntry info fp) _
  · intro m hm
    simp [newEntry, hm]
  · intro hm
    simp [newEntry, hm]

/-- C2 witness: a concrete second build (one markdown file, unchanged
mtime) performs zero build actions and zero cleanups and leaves the
persisted cache unchanged. -/
theorem c2_second_build_noop_witness :
    runBuild [("a.md", ⟨Fingerprint.num 1, { files := ["a.html"] }⟩)]
      [⟨"a.md", fun _ => Except.ok { files := ["a.html"] }, Fingerprint.num 1⟩] =
      Except.ok ⟨[("a.md", ⟨Fingerprint.num 1, { files := ["a.html"] }⟩)], [], []⟩ :=
  c2_second_build_noop _ _ (by simp) (by simp)
    (by
      intro i hi
      rw [List.mem_singleton] at hi
      subst hi
      rfl)
    (by intro k hk; simpa using hk)

/-- C3 witness: the concrete scenario of the spec: cache has a.md with
mtime 1 and info files a.html; the source file is gone, so the rebuild
calls cleanup once with that info and the final cache holds nothing for
a.md. -/
theorem c3_deletion_cleanup_witness :
    ∃ r, runBuild [("a.md", ⟨Fingerprint.num 1, { files := ["a.html"] }⟩)] [] =
        Except.ok r ∧
      r.cleanups = [{ files := ["a.html"] }] ∧ dictGet "a.md" r.cache = none :=
  c3_deletion_cleanup "a.md" ⟨Fingerprint.num 1, { files := ["a.html"] }⟩ []
    (by simp) (by simp) (by simp)

/-- C6 witness: a tracker with one failing build action: commit propagates
the error and the previously persisted cache file is untouched. -/
theorem c6_commit_atomic_on_failure_witness :
    (Tracker.mk [] []
        [⟨"x", fun _ => Except.error "boom", Fingerprint.num 0⟩]).commit =
      Except.error "boom" ∧
    persistedAfterCommit [("a.md", ⟨Fingerprint.num 1, {}⟩)]
        (Tracker.mk [] []
          [⟨"x", fun _ => Except.error "boom", Fingerprint.num 0⟩]) =
      [("a.md", ⟨Fingerprint.num 1, {}⟩)] :=
  c6_commit_atomic_on_failure _ _ [] _ [] "boom" rfl (by simp) rfl

/-- C10 witness: a build action returning info with mtime key 7 while add
was passed fingerprint 3: the persisted entry carries fingerprint 7. -/
theorem c10_info_mtime_overrides_witness :
    ∃ r, runBuild []
        [⟨"p", fun _ => Except.ok { mtimeVal := some (Fingerprint.num 7) },
          Fingerprint.num 3⟩] = Except.ok r ∧
      ∃ en, dictGet "p" r.cache = some en ∧
        en.info = { mtimeVal := some (Fingerprint.num 7) } ∧
        (∀ m, ({ mtimeVal := some (Fingerprint.num 7) } : Info).mtimeVal =
          some m → en.mtime = m) ∧
        (({ mtimeVal := some (Fingerprint.num 7) } : Info).mtimeVal = none →
          en.mtime = Fingerprint.num 3) :=
  c10_info_mtime_overrides [] "p" _ (Fingerprint.num 3) _ rfl
    (by simp [dictGet])

/-- A row of the documents table (src/service/store.py lines 97-107),
combined with the Document fix-up (lines 61-94): url is the primary key,
type holds the category (default general), date and content are pulled out
of the metadata into their own columns, the remaining metadata is a JSON
object whose scalar values are modelled as strings (the title lives there),
and mtime is the source modification instant.  Dates are modelled as
naturals: the persisted datetimes compare chronologically. -/
structure Doc where
  url : String
  parent : String
  type : String
  date : Option Nat
  metadata : List (String × String)
  content : Option String
  mtime : Nat
deriving DecidableEq, Repr

/-- The title column used by ORDER BY: json_extract(metadata, title),
NULL when the metadata has no title key. -/
def docTitle (d : Doc) : Option String :=
  dictGet "title" d.metadata

/-- DocumentStore.add (src/service/store.py lines 140-154): INSERT OR
REPLACE by primary key url; SQLite REPLACE deletes the conflicting row and
inserts the new row with a fresh rowid, so the new row moves to the end in
rowid order. -/
def storeAdd (table : List Doc) (d : Doc) : List Doc :=
  table.filter (fun r => !decide (r.url = d.url)) ++ [d]

/-- DocumentStore.delete (src/service/store.py lines 160-162). -/
def storeDelete (table : List Doc) (url : String) : List Doc :=
  table.filter (fun r => !decide (r.url = url))

/-- SQLite ascending comparison on a nullable integer column: NULL sorts
before every value. -/
def optLeNat : Option Nat → Option Nat → Bool
  | none, _ => true
  | some _, none => false
  | some a, some b => decide (a ≤ b)

/-- Strict version of the SQLite ascending NULL-first integer order. -/
def optLtNat : Option Nat → Option Nat → Bool
  | none, some _ => true
  | some a, some b => decide (a < b)
  | _, _ => false

/-- SQLite ascending comparison on a nullable text column (binary
collation): NULL sorts before every value. -/
def optLeStr : Option String → Option String → Bool
  | none, _ => true
  | some _, none => false
  | some a, some b => decide (a ≤ b)

/-- The ORDER BY clause of DocumentStore.getall (src/service/store.py line
224): date ASC or DESC first (DESC reverses the NULL-first placement to
NULL-last), then title ASC. -/
def sqlOrderLe (asc : Bool) (a b : Doc) : Bool :=
  if a.date = b.date then optLeStr (docTitle a) (docTitle b)
  else if asc then optLtNat a.date b.date else optLtNat b.date a.date

/-- Stable insertion into a sorted list: the new element goes before the
first element it compares less-or-equal to, hence before equal elements;
since insSort inserts earlier input elements later, an element inserted on
top of its ties was earlier in the input, which is exactly stability. -/
def insertSorted {α : Type} (le : α → α → Bool) (x : α) : List α → List α
  | [] => [x]
  | y :: ys => if le x y then x :: y :: ys else y :: insertSorted le x ys

/-- Stable insertion sort; a deterministic model of an ORDER BY result and
of CPython sorted (any two stable sorts under the same total preorder
agree). -/
def insSort {α : Type} (le : α → α → Bool) : List α → List α
  | [] => []
  | x :: xs => insertSorted le x (insSort le xs)

/-- The WHERE clause of DocumentStore.getall (src/service/store.py lines
188-212).  Python truthiness gates each clause: a None or empty include or
exclude list, a None or empty parent string, and a None or empty search
string all add no constraint.  SQL LIKE with percent wildcards on the
contents column is external and modelled as a case-insensitive substring
test that is false on NULL contents; a metadata equality on a missing key
compares NULL = value and is false. -/
def likeContains (content : Option String) (w : String) : Bool :=
  match content with
  | none => false
  | some s => ((s.toLower.splitOn w.toLower).length != 1)

def searchWords (s : String) : List String :=
  (s.splitOn " ").filter (fun w => w != "")

def rowMatches (parentQ : Option String) (incl excl : Option (List String))
    (searchQ : Option String) (metaFs : List (String × String))
    (d : Doc) : Bool :=
  (match excl with
   | none => true
   | some [] => true
   | some es => decide (∀ e ∈ es, d.type ≠ e)) &&
  (match incl with
   | none => true
   | some [] => true
   | some is => decide (∃ i ∈ is, d.type = i)) &&
  (match parentQ with
   | none => true
   | some p => if p = "" then true else decide (d.parent = p)) &&
  (match searchQ with
   | none => true
   | some s => if s = "" then true
       else (searchWords s).all (fun w => likeContains d.content w)) &&
  (metaFs.all (fun kv => decide (dictGet kv.1 d.metadata = some kv.2)))

/-- DocumentStore.getall (src/service/store.py lines 187-225): filter by
the WHERE clause, order by (date in the requested direction, title
ascending), apply LIMIT.  Row order beyond the ORDER BY keys is not
specified by SQL and is modelled as stable in table (rowid) order. -/
def getall (table : List Doc) (parentQ : Option String)
    (incl excl : Option (List String)) (searchQ : Option String)
    (metaFs : List (String × String)) (offset count : Option Nat)
    (asc : Bool) : List Doc :=
  let rows := insSort (sqlOrderLe asc)
    (table.filter (rowMatches parentQ incl excl searchQ metaFs))
  match offset, count with
  | some o, some n => (rows.drop o).take n
  | none, some n => rows.take n
  | _, _ => rows

/-- The sort key of sort_posts (src/service/website.py line 364):
sort_date strips the timezone from the date; it is only evaluated on posts
that have a date (the code would raise otherwise). -/
def sortDate (d : Doc) : Nat :=
  d.date.getD 0

/-- The comparison realized by CPython sorted with key sort_date and
reverse = not ascending: reverse sorting flips the key comparison but keeps
ties in original order, which a stable sort under the flipped preorder
reproduces. -/
def sortDateLe (ascending : Bool) (a b : Doc) : Bool :=
  if ascending then decide (sortDate a ≤ sortDate b)
  else decide (sortDate b ≤ sortDate a)

/-- sort_posts (src/service/website.py lines 118-121): the dated posts
sorted by sort_date in the requested direction followed by the undated
posts in their incoming order. -/
def sort_posts (posts : List Doc) (ascending : Bool) : List Doc :=
  insSort (sortDateLe ascending) (posts.filter (fun p => p.date.isSome)) ++
    posts.filter (fun p => p.date.isNone)

/-- Site.load_cache (src/service/website.py lines 131-138) iterates
store.getall() with every argument defaulted: no filters, no limit,
ascending date order.  The snapshot is that result list; the url dictionary
and the by-parent lists are derived from it below. -/
def loadSnap (table : List Doc) : List Doc :=
  getall table none none none none [] none none true

/-- The url dictionary built by Site.load_cache: one assignment per
snapshot document, later urls overwriting earlier ones in place. -/
def siteCacheDict (snap : List Doc) : List (String × Doc) :=
  snap.foldl (fun m d => dictInsert d.url d m) []

/-- The values view of the url dictionary (Site posts with no filters). -/
def siteCacheDocs (snap : List Doc) : List Doc :=
  (siteCacheDict snap).map Prod.snd

/-- The by-parent lists built by Site.load_cache: every snapshot document
is appended to the list of its parent, in snapshot order. -/
def siteByParent (snap : List Doc) (parent : String) : List Doc :=
  snap.filter (fun d => decide (d.parent = parent))

/-- Site.post (src/service/website.py lines 156-161): url dictionary
lookup, None when absent. -/
def sitePost (snap : List Doc) (url : String) : Option Doc :=
  dictGet url (siteCacheDict snap)

/-- Site.posts (src/service/website.py lines 140-154), over a loaded
snapshot snap of the table: with no arguments at all the url dictionary
values are sorted by sort_posts; with only a parent, the by-parent list is
sorted by sort_posts; any other filter bypasses the snapshot and queries
the store directly.  The parent-only branch with parent None cannot be
reached (the no-argument branch catches it); the by-parent default
dictionary would yield the empty list there. -/
def sitePosts (table snap : List Doc) (incl excl : Option (List String))
    (parentQ searchQ : Option String) (metaFs : List (String × String))
    (ascending : Bool) : List Doc :=
  if incl = none ∧ excl = none ∧ parentQ = none ∧ searchQ = none ∧
      metaFs = [] then
    sort_posts (siteCacheDocs snap) ascending
  else if incl = none ∧ excl = none ∧ searchQ = none ∧ metaFs = [] then
    (match parentQ with
     | some p => sort_posts (siteByParent snap p) ascending
     | none => sort_posts [] ascending)
  else
    getall table parentQ incl excl searchQ metaFs none none ascending

theorem insertSorted_perm {α : Type} (le : α → α → Bool) (x : α)
    (l : List α) : List.Perm (insertSorted le x l) (x :: l) := by
  induction l with
  | nil => exact List.Perm.refl [x]
  | cons y ys ih =>
      by_cases h : le x y = true
      · simp [insertSorted, h]
      · simp only [insertSorted, if_neg h]
        exact (ih.cons y).trans (List.Perm.swap x y ys)

theorem insSort_perm {α : Type} (le : α → α → Bool) (l : List α) :
    List.Perm (insSort le l) l := by
  induction l with
  | nil => exact List.Perm.refl []
  | cons x xs ih =>
      exact (insertSorted_perm le x (insSort le xs)).trans (ih.cons x)

theorem mem_insSort {α : Type} (le : α → α → Bool) (l : List α) (a : α) :
    a ∈ insSort le l ↔ a ∈ l :=
  (insSort_perm le l).mem_iff

theorem insertSorted_pairwise_le {α : Type} (le : α → α → Bool)
    (htot : ∀ a b, le a b = true ∨ le b a = true)
    (htrans : ∀ a b c, le a b = true → le b c = true → le a c = true)
    (x : α) (l : List α) (hl : l.Pairwise (fun a b => le a b = true)) :
    (insertSorted le x l).Pairwise (fun a b => le a b = true) := by
  induction l with
  | nil => simp [insertSorted]
  | cons y ys ih =>
      obtain ⟨hy, hys⟩ := List.pairwise_cons.mp hl
      by_cases h : le x y = true
      · simp only [insertSorted, if_pos h]
        refine List.pairwise_cons.mpr ⟨?_, hl⟩
        intro z hz
        rcases List.mem_cons.mp hz with rfl | hz'
        · exact h
        · exact htrans x y z h (hy z hz')
      · simp only [insertSorted, if_neg h]
        refine List.pairwise_cons.mpr ⟨?_, ih hys⟩
        intro z hz
        rcases List.mem_cons.mp ((insertSorted_perm le x ys).mem_iff.mp hz) with rfl | hz'
        · rcases htot y z with hyz | hzy
          · exact hyz
          · exact absurd hzy h
        · exact hy z hz'

theorem insSort_pairwise_le {α : Type} (le : α → α → Bool)
    (htot : ∀ a b, le a b = true ∨ le b a = true)
    (htrans : ∀ a b c, le a b = true → le b c = true → le a c = true)
    (l : List α) :
    (insSort le l).Pairwise (fun a b => le a b = true) := by
  induction l with
  | nil => simp [insSort]
  | cons x xs ih =>
      exact insertSorted_pairwise_le le htot htrans x (insSort le xs) ih

/-- The order that a stable sort by le realizes on an input already
ordered by S: strictly le-before, or an le-tie whose original order
(recorded by S) is kept. -/
def stableOrder {α : Type} (le : α → α → Bool) (S : α → α → Prop)
    (a b : α) : Prop :=
  (le a b = true ∧ ¬ le b a = true) ∨
    (le a b = true ∧ le b a = true ∧ S a b)

theorem insertSorted_stable {α : Type} (le : α → α → Bool) (S : α → α → Prop)
    (htot : ∀ a b, le a b = true ∨ le b a = true)
    (htrans : ∀ a b c, le a b = true → le b c = true → le a c = true)
    (x : α) (m : List α)
    (hm : m.Pairwise (stableOrder le S))
    (hsorted : m.Pairwise (fun a b => le a b = true))
    (hx : ∀ y ∈ m, S x y) :
    (insertSorted le x m).Pairwise (stableOrder le S) := by
  induction m with
  | nil => simp [insertSorted]
  | cons y ys ih =>
      obtain ⟨hmy, hmys⟩ := List.pairwise_cons.mp hm
      obtain ⟨hsy, hsys⟩ := List.pairwise_cons.mp hsorted
      by_cases h : le x y = true
      · simp only [insertSorted, if_pos h]
        refine List.pairwise_cons.mpr ⟨?_, hm⟩
        intro z hz
        have hlez : le x z = true := by
          rcases List.mem_cons.mp hz with rfl | hz'
          · exact h
          · exact htrans x y z h (hsy z hz')
        by_cases hzx : le z x = true
        · exact Or.inr ⟨hlez, hzx, hx z hz⟩
        · exact Or.inl ⟨hlez, hzx⟩
      · simp only [insertSorted, if_neg h]
        refine List.pairwise_cons.mpr ⟨?_, ih hmys hsys
          (fun z hz => hx z (List.mem_cons_of_mem y hz))⟩
        intro z hz
        rcases List.mem_cons.mp ((insertSorted_perm le x ys).mem_iff.mp hz) with rfl | hz'
        · rcases htot y z with hyz | hzy
          · exact Or.inl ⟨hyz, h⟩
          · exact absurd hzy h
        · exact hmy z hz'

theorem insSort_stable_of_pairwise {α : Type} (le : α → α → Bool)
    (S : α → α → Prop)
    (htot : ∀ a b, le a b = true ∨ le b a = true)
    (htrans : ∀ a b c, le a b = true → le b c = true → le a c = true)
    (l : List α) (hl : l.Pairwise S) :
    (insSort le l).Pairwise (stableOrder le S) := by
  induction l with
  | nil => simp [insSort]
  | cons x xs ih =>
      obtain ⟨hx, hxs⟩ := List.pairwise_cons.mp hl
      exact insertSorted_stable le S htot htrans x (insSort le xs)
        (ih hxs)
        (insSort_pairwise_le le htot htrans xs)
        (fun y hy => hx y ((insSort_perm le xs).mem_iff.mp hy))

theorem optLeStr_total (a b : Option String) :
    optLeStr a b = true ∨ optLeStr b a = true := by
  cases a with
  | none => left; rfl
  | some x => cases b with
    | none => right; rfl
    | some y =>
        rcases le_total x y with h | h
        · left; simpa [optLeStr] using h
        · right; simpa [optLeStr] using h

theorem optLeStr_trans (a b c : Option String) (hab : optLeStr a b = true)
    (hbc : optLeStr b c = true) : optLeStr a c = true := by
  cases a with
  | none => rfl
  | some x => cases b with
    | none => simp [optLeStr] at hab
    | some y => cases c with
      | none => simp [optLeStr] at hbc
      | some z =>
          simp only [optLeStr, decide_eq_true_eq] at hab hbc ⊢
          exact le_trans hab hbc

theorem optLtNat_ne (x y : Option Nat) (h : optLtNat x y = true) : x ≠ y := by
  cases x with
  | none => cases y with
    | none => simp [optLtNat] at h
    | some b => simp
  | some a => cases y with
    | none => simp [optLtNat] at h
    | some b =>
        simp only [optLtNat, decide_eq_true_eq] at h
        simp [Nat.ne_of_lt h]

theorem optLtNat_trans (x y z : Option Nat) (hxy : optLtNat x y = true)
    (hyz : optLtNat y z = true) : optLtNat x z = true := by
  cases x <;> cases y <;> cases z <;>
    simp_all [optLtNat]
  omega

theorem optLtNat_total_of_ne (x y : Option Nat) (h : x ≠ y) :
    optLtNat x y = true ∨ optLtNat y x = true := by
  cases x with
  | none => cases y with
    | none => exact absurd rfl h
    | some b => left; rfl
  | some a => cases y with
    | none => right; rfl
    | some b =>
        have : a ≠ b := fun hh => h (by rw [hh])
        rcases Nat.lt_or_ge a b with hl | hg
        · left; simpa [optLtNat] using hl
        · right
          have : b < a := Nat.lt_of_le_of_ne hg (Ne.symm this)
          simpa [optLtNat] using this

theorem sqlOrderLe_total (asc : Bool) (a b : Doc) :
    sqlOrderLe asc a b = true ∨ sqlOrderLe asc b a = true := by
  by_cases h : a.date = b.date
  · unfold sqlOrderLe
    rw [if_pos h, if_pos h.symm]
    exact optLeStr_total _ _
  · have h' : ¬ (b.date = a.date) := fun hh => h hh.symm
    have htot := optLtNat_total_of_ne a.date b.date h
    cases asc with
    | true => simpa [sqlOrderLe, h, h'] using htot
    | false => simpa [sqlOrderLe, h, h'] using htot.symm

theorem sqlOrderLe_trans (asc : Bool) (a b c : Doc)
    (hab : sqlOrderLe asc a b = true) (hbc : sqlOrderLe asc b c = true) :
    sqlOrderLe asc a c = true := by
  unfold sqlOrderLe at hab hbc ⊢
  by_cases dab : a.date = b.date
  · by_cases dbc : b.date = c.date
    · rw [if_pos dab] at hab
      rw [if_pos dbc] at hbc
      rw [if_pos (dab.trans dbc)]
      exact optLeStr_trans _ _ _ hab hbc
    · rw [if_neg dbc] at hbc
      have dac : a.date ≠ c.date := fun hh => dbc (dab ▸ hh)
      rw [if_neg dac, dab]
      exact hbc
  · by_cases dbc : b.date = c.date
    · rw [if_neg dab] at hab
      have dac : a.date ≠ c.date := fun hh => dab (hh.trans dbc.symm)
      rw [if_neg dac, ← dbc]
      exact hab
    · rw [if_neg dab] at hab
      rw [if_neg dbc] at hbc
      cases asc with
      | true =>
          simp only [if_pos rfl] at hab hbc
          have hac := optLtNat_trans _ _ _ hab hbc
          rw [if_neg (optLtNat_ne _ _ hac), if_pos rfl]
          exact hac
      | false =>
          simp only [Bool.false_eq_true,
            if_neg (by simp : ¬ (false = true))] at hab hbc
          have hca := optLtNat_trans _ _ _ hbc hab
          have : c.date ≠ a.date := optLtNat_ne _ _ hca
          rw [if_neg (fun hh => this hh.symm)]
          simp only [Bool.false_eq_true, if_neg (by simp : ¬ (false = true))]
          exact hca

theorem sortDateLe_total (ascending : Bool) (a b : Doc) :
    sortDateLe ascending a b = true ∨ sortDateLe ascending b a = true := by
  unfold sortDateLe
  cases ascending <;> simp <;> omega

theorem sortDateLe_trans (ascending : Bool) (a b c : Doc)
    (hab : sortDateLe ascending a b = true)
    (hbc : sortDateLe ascending b c = true) :
    sortDateLe ascending a c = true := by
  unfold sortDateLe at hab hbc ⊢
  cases ascending <;> simp_all <;> omega

/-- The order the claim describes on the parent query result: dated before
undated regardless of direction; among dated documents, date strictly in
the requested direction or an equal date with titles ascending (a missing
title first, as SQL sorts NULL first in ascending order). -/
def c4Order (asc : Bool) (a b : Doc) : Prop :=
  match a.date, b.date with
  | some da, some db =>
      (if asc then da < db else db < da) ∨
        (da = db ∧ optLeStr (docTitle a) (docTitle b) = true)
  | some _, none => True
  | none, some _ => False
  | none, none => True

theorem stableOrder_to_c4 (asc : Bool) (a b : Doc)
    (ha : a.date.isSome = true) (hb : b.date.isSome = true)
    (h : stableOrder (sortDateLe asc) (fun x y => sqlOrderLe true x y = true) a b) :
    c4Order asc a b := by
  obtain ⟨da, hda⟩ := Option.isSome_iff_exists.mp ha
  obtain ⟨db, hdb⟩ := Option.isSome_iff_exists.mp hb
  have hsa : sortDate a = da := by simp [sortDate, hda]
  have hsb : sortDate b = db := by simp [sortDate, hdb]
  unfold c4Order
  rw [hda, hdb]
  cases asc with
  | true =>
      rcases h with ⟨hle, hnle⟩ | ⟨hle, hge, hS⟩
      · simp [sortDateLe, hsa, hsb] at hle hnle
        have hlt : da < db := by omega
        exact Or.inl (by simpa using hlt)
      · simp [sortDateLe, hsa, hsb] at hle hge
        have hdd : da = db := by omega
        refine Or.inr ⟨hdd, ?_⟩
        unfold sqlOrderLe at hS
        rw [if_pos (by rw [hda, hdb, hdd])] at hS
        exact hS
  | false =>
      rcases h with ⟨hle, hnle⟩ | ⟨hle, hge, hS⟩
      · simp [sortDateLe, hsa, hsb] at hle hnle
        have hlt : db < da := by omega
        exact Or.inl (by simpa using hlt)
      · simp [sortDateLe, hsa, hsb] at hle hge
        have hdd : da = db := by omega
        refine Or.inr ⟨hdd, ?_⟩
        unfold sqlOrderLe at hS
        rw [if_pos (by rw [hda, hdb, hdd])] at hS
        exact hS

theorem rowMatches_none (d : Doc) :
    rowMatches none none none none [] d = true := rfl

theorem loadSnap_eq (table : List Doc) :
    loadSnap table = insSort (sqlOrderLe true) table := by
  unfold loadSnap getall
  have hf : table.filter (rowMatches none none none none []) = table :=
    List.filter_eq_self.mpr (fun d _ => rowMatches_none d)
  simp [hf]

theorem filter_isNone_eq (l : List Doc) :
    l.filter (fun p => p.date.isNone) =
      l.filter (fun p => !(p.date.isSome)) := by
  apply List.filter_congr
  intro d _
  cases d.date <;> rfl

theorem sort_posts_perm (l : List Doc) (asc : Bool) :
    List.Perm (sort_posts l asc) l := by
  unfold sort_posts
  rw [filter_isNone_eq]
  exact ((insSort_perm _ _).append (List.Perm.refl _)).trans
    (List.filter_append_perm _ l)

/-- C4: a Site query with a parent filter and no other filters returns
exactly the documents whose parent equals the given parent, ordered with
every dated document before every undated document regardless of
direction, dates in the requested direction, and equal dates tied by title
ascending (the parent-only branch of Site.posts sorts the by-parent
snapshot list with sort_posts; the title tie stems from the snapshot being
loaded in (date, title) ascending SQL order and both sorts being stable). -/
theorem c4_parent_query_shape (table : List Doc) (p : String) (asc : Bool) :
    List.Perm (sitePosts table (loadSnap table) none none (some p) none [] asc)
      (table.filter (fun d => decide (d.parent = p))) ∧
    (sitePosts table (loadSnap table) none none (some p) none [] asc).Pairwise
      (c4Order asc) := by
  have hsite : sitePosts table (loadSnap table) none none (some p) none [] asc =
      sort_posts (siteByParent (loadSnap table) p) asc := by
    unfold sitePosts
    simp
  rw [hsite]
  constructor
  · refine (sort_posts_perm _ asc).trans ?_
    unfold siteByParent
    rw [loadSnap_eq]
    exact (insSort_perm (sqlOrderLe true) table).filter _
  · have hsnap : (loadSnap table).Pairwise
        (fun a b => sqlOrderLe true a b = true) := by
      rw [loadSnap_eq]
      exact insSort_pairwise_le _ (sqlOrderLe_total true)
        (sqlOrderLe_trans true) table
    have hbp : (siteByParent (loadSnap table) p).Pairwise
        (fun a b => sqlOrderLe true a b = true) :=
      hsnap.filter _
    have hdated : ((siteByParent (loadSnap table) p).filter
        (fun d => d.date.isSome)).Pairwise
        (fun a b => sqlOrderLe true a b = true) :=
      hbp.filter _
    have hsorted := insSort_stable_of_pairwise (sortDateLe asc)
      (fun x y => sqlOrderLe true x y = true)
      (sortDateLe_total asc) (sortDateLe_trans asc) _ hdated
    unfold sort_posts
    rw [List.pairwise_append]
    refine ⟨?_, ?_, ?_⟩
    · refine hsorted.imp_of_mem ?_
      intro a b hma hmb hr
      have ha : a.date.isSome = true :=
        (List.mem_filter.mp ((mem_insSort _ _ a).mp hma)).2
      have hb : b.date.isSome = true :=
        (List.mem_filter.mp ((mem_insSort _ _ b).mp hmb)).2
      exact stableOrder_to_c4 asc a b ha hb hr
    · apply List.pairwise_of_forall_mem_list
      intro a hma b hmb
      have ha : a.date.isNone = true := (List.mem_filter.mp hma).2
      have hb : b.date.isNone = true := (List.mem_filter.mp hmb).2
      unfold c4Order
      rw [Option.isNone_iff_eq_none.mp ha, Option.isNone_iff_eq_none.mp hb]
      trivial
    · intro a hma b hmb
      have ha : a.date.isSome = true :=
        (List.mem_filter.mp ((mem_insSort _ _ a).mp hma)).2
      have hb : b.date.isNone = true := (List.mem_filter.mp hmb).2
      obtain ⟨da, hda⟩ := Option.isSome_iff_exists.mp ha
      unfold c4Order
      rw [hda, Option.isNone_iff_eq_none.mp hb]
      trivial

/-!  The dynamic-dependency render layer: DocumentWrapper query execution
(src/service/website.py), QueryTracker, and the phase-6 render loop of
process_files (src/plugins/commands/build.py lines 154-181).  -/

/-- The ascending flag decoded from a sort parameter
(src/service/website.py lines 266 and 270): the string ascending means
ascending, an absent key defaults to ascending, anything else descends. -/
def ascQ (sort : Option String) : Bool :=
  match sort with
  | some v => v == "ascending"
  | none => true

/-- The loop of the previous query (src/service/website.py lines 283-288):
walk the parent listing remembering the last document; on meeting the
document itself return the remembered singleton, at the end return none. -/
def prevLoop (selfUrl : String) : List Doc → List Doc → List Doc
  | [], _ => []
  | d :: ds, prev => if d.url = selfUrl then prev else prevLoop selfUrl ds [d]

/-- The loop of the next query (src/service/website.py lines 292-298):
walk the parent listing; once the document itself has been seen return the
following document, at the end return none. -/
def nextLoop (selfUrl : String) : List Doc → Bool → List Doc
  | [], _ => []
  | d :: ds, found =>
      if found then [d] else nextLoop selfUrl ds (d.url == selfUrl)

/-- DocumentWrapper run_query (src/service/website.py lines 262-299) on a
site whose snapshot snap of table has been loaded; selfUrl is the url of
the wrapper document (used by previous and next).  The posts shape passes
include and exclude to Site.posts; children and siblings pass a parent; the
post shape is a url dictionary lookup; siblings, previous and next leave
Site.posts ascending at its default False. -/
def runQuery (table snap : List Doc) (selfUrl : String) :
    QueryParams → List Doc
  | QueryParams.posts incl excl sort =>
      sitePosts table snap incl excl none none [] (ascQ sort)
  | QueryParams.children parent sort =>
      sitePosts table snap none none (some parent) none [] (ascQ sort)
  | QueryParams.post url =>
      match sitePost snap url with
      | some d => [d]
      | none => []
  | QueryParams.siblings op =>
      match op with
      | none => []
      | some parent => sitePosts table snap none none (some parent) none [] false
  | QueryParams.previous op =>
      match op with
      | none => []
      | some parent =>
          prevLoop selfUrl
            (sitePosts table snap none none (some parent) none [] false) []
  | QueryParams.next op =>
      match op with
      | none => []
      | some parent =>
          nextLoop selfUrl
            (sitePosts table snap none none (some parent) none [] false) false

/-- The resultFingerprint recorded by QueryTracker.add
(src/service/website.py lines 192-194): the hash of the mtimes of the
documents the query currently returns, in result order. -/
def queryHash (table snap : List Doc) (selfUrl : String)
    (params : QueryParams) : Fingerprint :=
  hash_items ((runQuery table snap selfUrl params).map
    (fun d => Fingerprint.num d.mtime))

/-- DocumentWrapper.hash (src/service/website.py lines 215-217):
hash_items over the single mtime. -/
def Doc.hash (d : Doc) : Fingerprint :=
  hash_items [Fingerprint.num d.mtime]

/-- DocumentWrapper.evaluate_queries (src/service/website.py lines
254-260): re-run every stored query key against the current store, in
stored order, and hash the mtimes of each current result; the stored
digests are ignored. -/
def evaluate_queries (table snap : List Doc) (selfUrl : String)
    (queries : List (QueryParams × Fingerprint)) : List Fingerprint :=
  queries.map (fun q => queryHash table snap selfUrl q.1)

/-- The digest combined at src/plugins/commands/build.py lines 171 and
178: hash_items([template_hash, document.hash] + hashes). -/
def digest (tfp : Fingerprint) (d : Doc) (hs : List Fingerprint) :
    Fingerprint :=
  hash_items ([tfp, d.hash] ++ hs)

/-- The template-set fingerprint (src/plugins/commands/build.py lines
157-159): hash_items over the mtimes of every template file. -/
def templateFp (templateMtimes : List Nat) : Fingerprint :=
  hash_items (templateMtimes.map Fingerprint.num)

/-- The document list the render loop iterates
(src/plugins/commands/build.py line 165): website.documents() returns
site.posts() with no arguments, i.e. the url dictionary values of the
loaded snapshot sorted by sort_posts with ascending at its default
False. -/
def renderDocs (table : List Doc) : List Doc :=
  sort_posts (siteCacheDocs (loadSnap table)) false

/-- The queries dictionary captured by a render of d: the renderer (the
excluded templating layer) performs a sequence of tracked queries, given by
renderTrace as (self url, parameters) pairs in execution order; each is
recorded into the QueryTracker dictionary keyed by its parameters with the
hash of its current result mtimes (a repeated query overwrites its key in
place, as a dict does). -/
def renderQT (table snap : List Doc)
    (renderTrace : Doc → List (String × QueryParams)) (d : Doc) :
    List (QueryParams × Fingerprint) :=
  (renderTrace d).foldl
    (fun acc sp => dictInsert sp.2 (queryHash table snap sp.1 sp.2) acc) []

/-- The info payload returned by the render action (render_outer at
src/plugins/commands/build.py lines 166-171): the written file, the
captured queries dictionary, and an mtime key holding
hash_items([template_hash, document.hash] + hashes) where hashes are the
values of the queries dictionary in order.  The destination path
construction of website.render is file-system layout (external) and is
abstracted by destOf. -/
def renderInfo (table snap : List Doc) (tfp : Fingerprint)
    (destOf : Doc → String)
    (renderTrace : Doc → List (String × QueryParams)) (d : Doc) : Info :=
  { files := [destOf d], urls := [],
    queries := renderQT table snap renderTrace d,
    mtimeVal := some (digest tfp d
      ((renderQT table snap renderTrace d).map Prod.snd)) }

/-- The create callback handed to the render ChangeTracker for d. -/
def renderCreate (table snap : List Doc) (tfp : Fingerprint)
    (destOf : Doc → String)
    (renderTrace : Doc → List (String × QueryParams)) (d : Doc) :
    String → Except String Info :=
  fun _ => Except.ok (renderInfo table snap tfp destOf renderTrace d)

/-- The stored queries looked up before re-evaluation
(src/plugins/commands/build.py lines 173-177): get_info(url)[queries],
empty on a KeyError (url not cached). -/
def storedQueries (cache0 : Cache) (d : Doc) :
    List (QueryParams × Fingerprint) :=
  match dictGet d.url cache0 with
  | some en => en.info.queries
  | none => []

/-- The digest recomputed for d before deciding whether to re-render
(src/plugins/commands/build.py line 178): the stored query parameters are
re-evaluated against the current store and combined with the template-set
fingerprint and the document fingerprint. -/
def recomputedDigest (table : List Doc) (templateMtimes : List Nat)
    (cache0 : Cache) (d : Doc) : Fingerprint :=
  digest (templateFp templateMtimes) d
    (evaluate_queries table (loadSnap table) d.url (storedQueries cache0 d))

/-- One add request of the render loop (src/plugins/commands/build.py
line 179). -/
def renderRequest (table : List Doc) (templateMtimes : List Nat)
    (destOf : Doc → String)
    (renderTrace : Doc → List (String × QueryParams)) (cache0 : Cache)
    (d : Doc) : PendingAction :=
  ⟨d.url,
   renderCreate table (loadSnap table) (templateFp templateMtimes) destOf
     renderTrace d,
   recomputedDigest table templateMtimes cache0 d⟩

/-- The phase-6 render pass (src/plugins/commands/build.py lines 161-181):
open the render ChangeTracker on the persisted map cache0, add one request
per document keyed by its url with the recomputed digest as fingerprint
and the render closure as create callback, then commit. -/
def renderPhase (table : List Doc) (templateMtimes : List Nat)
    (destOf : Doc → String)
    (renderTrace : Doc → List (String × QueryParams)) (cache0 : Cache) :
    Except String CommitResult :=
  ((renderDocs table).foldl
    (fun t d =>
      t.add d.url
        (renderCreate table (loadSnap table) (templateFp templateMtimes)
          destOf renderTrace d)
        (recomputedDigest table templateMtimes cache0 d))
    (Tracker.fromCache cache0)).commit

theorem mem_keys_dictInsert {α β : Type} [DecidableEq α] (k x : α) (v : β)
    (d : List (α × β)) :
    x ∈ (dictInsert k v d).map Prod.fst ↔ x = k ∨ x ∈ d.map Prod.fst := by
  induction d with
  | nil => simp [dictInsert]
  | cons kv rest ih =>
      obtain ⟨k₀, v₀⟩ := kv
      by_cases h : k₀ = k
      · subst h
        simp [dictInsert]
      · simp only [dictInsert, if_neg h, List.map_cons, List.mem_cons, ih]
        tauto

theorem keys_dictInsert_nodup {α β : Type} [DecidableEq α] (k : α) (v : β)
    (d : List (α × β)) (h : (d.map Prod.fst).Nodup) :
    ((dictInsert k v d).map Prod.fst).Nodup := by
  induction d with
  | nil => simp [dictInsert]
  | cons kv rest ih =>
      obtain ⟨k₀, v₀⟩ := kv
      simp only [List.map_cons, List.nodup_cons] at h
      by_cases hk : k₀ = k
      · have hins : dictInsert k v ((k₀, v₀) :: rest) = (k, v) :: rest := by
          simp [dictInsert, hk]
        rw [hins]
        simp only [List.map_cons, List.nodup_cons]
        exact ⟨hk ▸ h.1, h.2⟩
      · simp only [dictInsert, if_neg hk, List.map_cons, List.nodup_cons]
        refine ⟨?_, ih h.2⟩
        rw [mem_keys_dictInsert]
        push_neg
        exact ⟨hk, h.1⟩

theorem mem_dictInsert {α β : Type} [DecidableEq α] (k : α) (v : β)
    (d : List (α × β)) (kv : α × β) (h : kv ∈ dictInsert k v d) :
    kv = (k, v) ∨ kv ∈ d := by
  induction d with
  | nil => simpa [dictInsert] using h
  | cons kv₀ rest ih =>
      obtain ⟨k₀, v₀⟩ := kv₀
      by_cases hk : k₀ = k
      · subst hk
        rcases List.mem_cons.mp (by simpa [dictInsert] using h) with h' | h'
        · exact Or.inl h'
        · exact Or.inr (List.mem_cons_of_mem _ h')
      · rw [dictInsert, if_neg hk] at h
        rcases List.mem_cons.mp h with h' | h'
        · exact Or.inr (h' ▸ List.mem_cons_self _ _)
        · rcases ih h' with h'' | h''
          · exact Or.inl h''
          · exact Or.inr (List.mem_cons_of_mem _ h'')

theorem cacheDict_fold_inv (snap : List Doc) :
    ∀ (m : List (String × Doc)),
    (∀ kv ∈ m, kv.1 = kv.2.url) → (m.map Prod.fst).Nodup →
    (∀ kv ∈ snap.foldl (fun m d => dictInsert d.url d m) m,
      kv.1 = kv.2.url) ∧
    ((snap.foldl (fun m d => dictInsert d.url d m) m).map Prod.fst).Nodup := by
  induction snap with
  | nil => intro m h1 h2; exact ⟨h1, h2⟩
  | cons d ds ih =>
      intro m h1 h2
      rw [List.foldl_cons]
      refine ih (dictInsert d.url d m) ?_ (keys_dictInsert_nodup _ _ _ h2)
      intro kv hkv
      rcases mem_dictInsert _ _ _ _ hkv with rfl | hkv'
      · rfl
      · exact h1 kv hkv'

theorem siteCacheDocs_urls_nodup (snap : List Doc) :
    ((siteCacheDocs snap).map Doc.url).Nodup := by
  obtain ⟨hinv, hkeys⟩ := cacheDict_fold_inv snap [] (by simp) (by simp)
  unfold siteCacheDocs
  rw [List.map_map]
  have : (siteCacheDict snap).map (Doc.url ∘ Prod.snd) =
      (siteCacheDict snap).map Prod.fst := by
    apply List.map_congr_left
    intro kv hkv
    exact (hinv kv hkv).symm
  rw [this]
  exact hkeys

theorem renderDocs_urls_nodup (table : List Doc) :
    ((renderDocs table).map Doc.url).Nodup :=
  ((sort_posts_perm (siteCacheDocs (loadSnap table)) false).map
    Doc.url).nodup_iff.mpr (siteCacheDocs_urls_nodup (loadSnap table))

/-- The request list of the render pass, one per document in loop order. -/
def renderReqs (table : List Doc) (templateMtimes : List Nat)
    (destOf : Doc → String)
    (renderTrace : Doc → List (String × QueryParams)) (cache0 : Cache) :
    List PendingAction :=
  (renderDocs table).map
    (renderRequest table templateMtimes destOf renderTrace cache0)

/-- The build actions the render pass enqueues: the requests whose
recomputed digest does not match the cached fingerprint. -/
def renderActions (table : List Doc) (templateMtimes : List Nat)
    (destOf : Doc → String)
    (renderTrace : Doc → List (String × QueryParams)) (cache0 : Cache) :
    List PendingAction :=
  (renderReqs table templateMtimes destOf renderTrace cache0).filter
    (fun i => !(skips cache0 i))

/-- The cache entries the render pass cleans up: the cached urls for which
no request was marked still present. -/
def renderDeletions (table : List Doc) (templateMtimes : List Nat)
    (destOf : Doc → String)
    (renderTrace : Doc → List (String × QueryParams)) (cache0 : Cache) :
    Cache :=
  cache0.filter
    (fun kv => !((renderReqs table templateMtimes destOf renderTrace cache0).any
      (fun i => skips cache0 i && decide (i.path = kv.1))))

/-- The cache after the cleanup loop of the render commit. -/
def renderCleaned (table : List Doc) (templateMtimes : List Nat)
    (destOf : Doc → String)
    (renderTrace : Doc → List (String × QueryParams)) (cache0 : Cache) :
    Cache :=
  (runCleanups
    (renderDeletions table templateMtimes destOf renderTrace cache0)
    cache0).1

theorem renderReqs_paths (table : List Doc) (templateMtimes : List Nat)
    (destOf : Doc → String)
    (renderTrace : Doc → List (String × QueryParams)) (cache0 : Cache) :
    (renderReqs table templateMtimes destOf renderTrace cache0).map
      PendingAction.path = (renderDocs table).map Doc.url := by
  unfold renderReqs
  rw [List.map_map]
  rfl

theorem renderReqs_paths_nodup (table : List Doc) (templateMtimes : List Nat)
    (destOf : Doc → String)
    (renderTrace : Doc → List (String × QueryParams)) (cache0 : Cache) :
    ((renderReqs table templateMtimes destOf renderTrace cache0).map
      PendingAction.path).Nodup := by
  rw [renderReqs_paths]
  exact renderDocs_urls_nodup table

theorem renderActions_creates_ok (table : List Doc)
    (templateMtimes : List Nat) (destOf : Doc → String)
    (renderTrace : Doc → List (String × QueryParams)) (cache0 : Cache) :
    ∀ a ∈ renderActions table templateMtimes destOf renderTrace cache0,
      ∃ v, a.create a.path = Except.ok v := by
  intro a hamem
  have hareq : a ∈ renderReqs table templateMtimes destOf renderTrace cache0 :=
    List.mem_of_mem_filter hamem
  obtain ⟨d', _, rfl⟩ := List.mem_map.mp hareq
  exact ⟨renderInfo table (loadSnap table) (templateFp templateMtimes)
    destOf renderTrace d', rfl⟩

theorem commit_eval (t : Tracker) (c dels : Cache)
    (acts : List PendingAction)
    (h1 : t.cache = c) (h2 : t.deletions = dels) (h3 : t.actions = acts) :
    t.commit = match runActions acts (runCleanups dels c).1 with
      | Except.error e => Except.error e
      | Except.ok (c2, lg) => Except.ok ⟨c2, (runCleanups dels c).2, lg⟩ := by
  rw [Tracker.commit_def, h1, h2, h3]

theorem renderPhase_run (table : List Doc) (templateMtimes : List Nat)
    (destOf : Doc → String)
    (renderTrace : Doc → List (String × QueryParams)) (cache0 : Cache)
    (hkeys : (cache0.map Prod.fst).Nodup) :
    ∃ cf log,
      runActions (renderActions table templateMtimes destOf renderTrace cache0)
        (renderCleaned table templateMtimes destOf renderTrace cache0) =
        Except.ok (cf, log) ∧
      renderPhase table templateMtimes destOf renderTrace cache0 =
        Except.ok ⟨cf,
          (runCleanups
            (renderDeletions table templateMtimes destOf renderTrace cache0)
            cache0).2,
          log⟩ := by
  obtain ⟨cf, log, hrun⟩ := runActions_ok
    (renderActions table templateMtimes destOf renderTrace cache0)
    (renderCleaned table templateMtimes destOf renderTrace cache0)
    (renderActions_creates_ok table templateMtimes destOf renderTrace cache0)
  refine ⟨cf, log, hrun, ?_⟩
  have hphase : renderPhase table templateMtimes destOf renderTrace cache0 =
      ((renderReqs table templateMtimes destOf renderTrace cache0).foldl
        (fun t i => t.add i.path i.create i.mtimeArg)
        (Tracker.fromCache cache0)).commit := by
    unfold renderPhase renderReqs
    rw [List.foldl_map]
    rfl
  obtain ⟨hc, ha, hdels⟩ := foldAdd_spec cache0
    (renderReqs table templateMtimes destOf renderTrace cache0)
    (Tracker.fromCache cache0) rfl (fun i _ => rfl)
    (renderReqs_paths_nodup table templateMtimes destOf renderTrace cache0)
    hkeys
  have ha' : ((renderReqs table templateMtimes destOf renderTrace
      cache0).foldl (fun t i => t.add i.path i.create i.mtimeArg)
      (Tracker.fromCache cache0)).actions =
      renderActions table templateMtimes destOf renderTrace cache0 := by
    rw [ha]
    exact List.nil_append _
  have hd' : ((renderReqs table templateMtimes destOf renderTrace
      cache0).foldl (fun t i => t.add i.path i.create i.mtimeArg)
      (Tracker.fromCache cache0)).deletions =
      renderDeletions table templateMtimes destOf renderTrace cache0 := by
    rw [hdels]
    rfl
  have heval := commit_eval _ cache0
    (renderDeletions table templateMtimes destOf renderTrace cache0)
    (renderActions table templateMtimes destOf renderTrace cache0)
    hc hd' ha'
  have hrun' : runActions
      (renderActions table templateMtimes destOf renderTrace cache0)
      ((runCleanups
        (renderDeletions table templateMtimes destOf renderTrace cache0)
        cache0).1) = Except.ok (cf, log) := hrun
  rw [hphase, heval, hrun']

/-- C1: the render-cache state machine.  For every document of the render
pass, the build recomputes the digest from the stored query parameters
against the current FactStore, combining the template-set fingerprint, the
document fingerprint and the recomputed query result fingerprints.  If the
cache holds that url with exactly this digest, the document is not
re-rendered and its entry survives unchanged; if the digest differs from
the stored one (or the url is absent), the render action runs, and the
fresh query set it captures is persisted together with the fresh digest as
the new cache entry. -/
theorem c1_render_cache_state_machine (table : List Doc)
    (templateMtimes : List Nat) (destOf : Doc → String)
    (renderTrace : Doc → List (String × QueryParams)) (cache0 : Cache)
    (hkeys : (cache0.map Prod.fst).Nodup)
    (d : Doc) (hd : d ∈ renderDocs table) :
    (∀ en, dictGet d.url cache0 = some en →
      en.mtime = recomputedDigest table templateMtimes cache0 d →
      ∃ r, renderPhase table templateMtimes destOf renderTrace cache0 =
          Except.ok r ∧
        d.url ∉ r.ran.map Prod.fst ∧
        dictGet d.url r.cache = some en) ∧
    ((∀ en, dictGet d.url cache0 = some en →
        en.mtime ≠ recomputedDigest table templateMtimes cache0 d) →
      ∃ r, renderPhase table templateMtimes destOf renderTrace cache0 =
          Except.ok r ∧
        (d.url, renderInfo table (loadSnap table) (templateFp templateMtimes)
          destOf renderTrace d) ∈ r.ran ∧
        dictGet d.url r.cache = some
          ⟨digest (templateFp templateMtimes) d
            ((renderQT table (loadSnap table) renderTrace d).map Prod.snd),
          renderInfo table (loadSnap table) (templateFp templateMtimes)
            destOf renderTrace d⟩) := by
  obtain ⟨cf, log, hrun, hcommit⟩ := renderPhase_run table templateMtimes
    destOf renderTrace cache0 hkeys
  constructor
  · -- digest match: still present, not re-rendered, entry kept
    intro en hen heq
    have hskip : skips cache0
        (renderRequest table templateMtimes destOf renderTrace cache0 d) =
        true := by
      simp [skips, renderRequest, hen, heq]
    have hnotact : d.url ∉
        (renderActions table templateMtimes destOf renderTrace cache0).map
          PendingAction.path := by
      intro hmem
      obtain ⟨a, hamem, hapath⟩ := List.mem_map.mp hmem
      have hareq : a ∈ renderReqs table templateMtimes destOf renderTrace
          cache0 := List.mem_of_mem_filter hamem
      obtain ⟨d', hd', rfl⟩ := List.mem_map.mp hareq
      have hdd : d' = d :=
        List.inj_on_of_nodup_map (renderDocs_urls_nodup table) hd' hd hapath
      subst hdd
      have hfilt := List.of_mem_filter hamem
      simp [hskip] at hfilt
    have hdelkeys : d.url ∉
        (renderDeletions table templateMtimes destOf renderTrace cache0).map
          Prod.fst := by
      intro hmem
      obtain ⟨kv, hkv, hkvfst⟩ := List.mem_map.mp hmem
      have hpred := List.of_mem_filter hkv
      have hany : (renderReqs table templateMtimes destOf renderTrace
          cache0).any (fun i => skips cache0 i && decide (i.path = kv.1)) =
          true := by
        refine List.any_eq_true.mpr
          ⟨renderRequest table templateMtimes destOf renderTrace cache0 d,
           List.mem_map_of_mem _ hd, ?_⟩
        rw [Bool.and_eq_true]
        exact ⟨hskip, by simp [renderRequest, hkvfst]⟩
      simp [hany] at hpred
    have hclean : dictGet d.url
        (renderCleaned table templateMtimes destOf renderTrace cache0) =
        some en := by
      unfold renderCleaned
      rw [runCleanups_eq]
      exact (dictGet_eraseFold_not_mem _ cache0 d.url hdelkeys).trans hen
    refine ⟨_, hcommit, ?_, ?_⟩
    · rw [runActions_log _ _ _ _ hrun]
      exact hnotact
    · rw [runActions_dictGet_not_mem _ _ _ _ hrun d.url hnotact]
      exact hclean
  · -- digest mismatch or uncached url: the render action runs and the
    -- fresh query set and digest are persisted
    intro hne
    have hnoskip : skips cache0
        (renderRequest table templateMtimes destOf renderTrace cache0 d) =
        false := by
      unfold skips renderRequest
      cases hget : dictGet d.url cache0 with
      | none => simp [hget]
      | some en => simp [hget, hne en hget]
    have hmemact : renderRequest table templateMtimes destOf renderTrace
        cache0 d ∈
        renderActions table templateMtimes destOf renderTrace cache0 :=
      List.mem_filter.mpr ⟨List.mem_map_of_mem _ hd, by simp [hnoskip]⟩
    obtain ⟨pre, post, hsplit⟩ := List.append_of_mem hmemact
    have hactsub : ((renderActions table templateMtimes destOf renderTrace
        cache0).map PendingAction.path).Sublist
        ((renderReqs table templateMtimes destOf renderTrace cache0).map
          PendingAction.path) :=
      (List.filter_sublist _).map PendingAction.path
    have hactpaths := hactsub.nodup
      (renderReqs_paths_nodup table templateMtimes destOf renderTrace cache0)
    have hpost : ∀ b ∈ post, b.path ≠
        (renderRequest table templateMtimes destOf renderTrace cache0
          d).path := by
      rw [hsplit] at hactpaths
      simp only [List.map_append, List.map_cons] at hactpaths
      have hsub2 : ((renderRequest table templateMtimes destOf renderTrace
          cache0 d).path :: post.map PendingAction.path).Sublist
          (pre.map PendingAction.path ++
            (renderRequest table templateMtimes destOf renderTrace cache0
              d).path :: post.map PendingAction.path) :=
        List.sublist_append_right _ _
      have hnodup2 := hsub2.nodup hactpaths
      intro b hb hbp
      exact (List.nodup_cons.mp hnodup2).1
        (hbp ▸ List.mem_map_of_mem PendingAction.path hb)
    rw [hsplit] at hrun
    obtain ⟨hlook, hmemlog⟩ := runActions_lookup_last pre _ post _ _ _ _
      hrun hpost rfl
    refine ⟨_, hcommit, hmemlog, ?_⟩
    exact hlook

/-- C5 counterexample: the claim says any change to the result membership
changes the resultFingerprint; but QueryTracker.add hashes only the mtimes
of the result, so replacing a document by a different one with the same
mtime (here a children query whose single result changes url from
/posts/a/ to /posts/b/ while the mtime stays 5) changes the membership yet
keeps the fingerprint. -/
theorem c5_counterexample :
    runQuery [⟨"/posts/a/", "/posts/", "general", none, [], none, 5⟩]
        (loadSnap [⟨"/posts/a/", "/posts/", "general", none, [], none, 5⟩])
        "" (QueryParams.children "/posts/" none) ≠
      runQuery [⟨"/posts/b/", "/posts/", "general", none, [], none, 5⟩]
        (loadSnap [⟨"/posts/b/", "/posts/", "general", none, [], none, 5⟩])
        "" (QueryParams.children "/posts/" none) ∧
    queryHash [⟨"/posts/a/", "/posts/", "general", none, [], none, 5⟩]
        (loadSnap [⟨"/posts/a/", "/posts/", "general", none, [], none, 5⟩])
        "" (QueryParams.children "/posts/" none) =
      queryHash [⟨"/posts/b/", "/posts/", "general", none, [], none, 5⟩]
        (loadSnap [⟨"/posts/b/", "/posts/", "general", none, [], none, 5⟩])
        "" (QueryParams.children "/posts/" none) := by
  constructor
  · decide
  · decide

/-- C5 amended: the resultFingerprint is a deterministic function of the
ordered list of mtimes of the result documents: two evaluations (under the
idealized injective md5) yield equal fingerprints exactly when the ordered
mtime lists agree, so repeated evaluation against an unchanged store is
stable, any change to the ordered mtime list changes the fingerprint, and
membership or order changes that preserve the ordered mtime list are not
detected; the combined digest over (template fingerprint, document
fingerprint, query fingerprints) is deterministic and changes exactly when
the query fingerprint list changes. -/
theorem c5_fingerprint_mtime_function (t1 t2 s1 s2 : List Doc)
    (u1 u2 : String) (p1 p2 : QueryParams) (tfp : Fingerprint) (d : Doc)
    (hs1 hs2 : List Fingerprint) :
    (queryHash t1 s1 u1 p1 = queryHash t2 s2 u2 p2 ↔
      (runQuery t1 s1 u1 p1).map Doc.mtime =
        (runQuery t2 s2 u2 p2).map Doc.mtime) ∧
    (digest tfp d hs1 = digest tfp d hs2 ↔ hs1 = hs2) := by
  constructor
  · constructor
    · intro h
      have h' := hash_items_injective h
      rw [show (fun x : Doc => Fingerprint.num x.mtime) =
          Fingerprint.num ∘ Doc.mtime from rfl, ← List.map_map,
        ← List.map_map] at h'
      exact List.map_injective_iff.mpr
        (fun a b hab => Fingerprint.num.inj hab) h'
    · intro h
      unfold queryHash
      rw [show (fun x : Doc => Fingerprint.num x.mtime) =
          Fingerprint.num ∘ Doc.mtime from rfl, ← List.map_map,
        ← List.map_map, h]
  · constructor
    · intro h
      exact List.append_cancel_left (hash_items_injective h)
    · intro h
      rw [digest, digest, h]

/-- The shared state of the website service process: the documents table
of the DocumentStore and the lazily loaded snapshot of Site
(src/service/website.py lines 126-138): None until the first query, then
the getall() result it was loaded from. -/
structure SiteState where
  table : List Doc
  snapshot : Option (List Doc)

/-- Site.load_cache (src/service/website.py lines 131-138): returns
immediately when the snapshot is already loaded; otherwise loads it from
the store.  Nothing in the code ever resets it. -/
def SiteState.loadCache (s : SiteState) : SiteState :=
  match s.snapshot with
  | some _ => s
  | none => { s with snapshot := some (loadSnap s.table) }

/-- Site.posts through the stateful site: lazily load the snapshot, then
answer from it (or from the store for filtered queries). -/
def SiteState.posts (s : SiteState) (incl excl : Option (List String))
    (parentQ searchQ : Option String) (metaFs : List (String × String))
    (ascending : Bool) : SiteState × List Doc :=
  ((s.loadCache),
   sitePosts s.loadCache.table (s.loadCache.snapshot.getD []) incl excl
     parentQ searchQ metaFs ascending)

/-- DocumentStore.add seen from the service process
(src/service/store.py lines 140-154): the table is updated; the Site
snapshot is not touched by any code path. -/
def SiteState.addDoc (s : SiteState) (d : Doc) : SiteState :=
  { s with table := storeAdd s.table d }

/-- C9 counterexample: the claim says every store write invalidates the
snapshot so a document added mid-pass is visible to later queries in the
same process; here a parent query loads the snapshot, a second document
with the same parent is then added to the store, and the same parent query
still returns only the first document. -/
theorem c9_counterexample :
    (⟨"/posts/b/", "/posts/", "general", none, [], none, 2⟩ : Doc) ∈
      (((⟨[⟨"/posts/a/", "/posts/", "general", none, [], none, 1⟩], none⟩ :
          SiteState).posts none none (some "/posts/") none [] false).1.addDoc
        ⟨"/posts/b/", "/posts/", "general", none, [], none, 2⟩).table ∧
    (⟨"/posts/b/", "/posts/", "general", none, [], none, 2⟩ : Doc) ∉
      ((((⟨[⟨"/posts/a/", "/posts/", "general", none, [], none, 1⟩], none⟩ :
          SiteState).posts none none (some "/posts/") none [] false).1.addDoc
        ⟨"/posts/b/", "/posts/", "general", none, [], none, 2⟩).posts
        none none (some "/posts/") none [] false).2 := by
  constructor
  · decide
  · decide

/-- C9 amended: writes to the DocumentStore do not invalidate the Site
snapshot cache: once the snapshot is loaded, DocumentStore.add leaves it
unchanged, and every subsequent query that the snapshot serves (no filters,
or a parent filter only) returns the same result as before the write, so a
document added after the snapshot load is not visible to those queries
(only queries with include, exclude, search or metadata filters bypass the
snapshot and read the current table). -/
theorem c9_snapshot_not_invalidated (s : SiteState) (d : Doc)
    (snap : List Doc) (h : s.snapshot = some snap) :
    (s.addDoc d).snapshot = some snap ∧
    (∀ parentQ asc,
      ((s.addDoc d).posts none none parentQ none [] asc).2 =
        (s.posts none none parentQ none [] asc).2) := by
  have hadd : (s.addDoc d).snapshot = s.snapshot := rfl
  constructor
  · rw [hadd, h]
  · intro parentQ asc
    have h1 : (s.addDoc d).loadCache = s.addDoc d := by
      unfold SiteState.loadCache
      rw [hadd, h]
    have h2 : s.loadCache = s := by
      unfold SiteState.loadCache
      rw [h]
    unfold SiteState.posts
    rw [h1, h2, hadd, h]
    cases parentQ with
    | none => simp [sitePosts]
    | some p => simp [sitePosts]

/-- C9 amended witness: the snapshot survives a write and the parent query
is unchanged, at a concrete loaded site. -/
theorem c9_snapshot_not_invalidated_witness :
    ((⟨[⟨"/posts/a/", "/posts/", "general", none, [], none, 1⟩],
        some [⟨"/posts/a/", "/posts/", "general", none, [], none, 1⟩]⟩ :
      SiteState).addDoc
        ⟨"/posts/b/", "/posts/", "general", none, [], none, 2⟩).snapshot =
      some [⟨"/posts/a/", "/posts/", "general", none, [], none, 1⟩] ∧
    (∀ parentQ asc,
      (((⟨[⟨"/posts/a/", "/posts/", "general", none, [], none, 1⟩],
          some [⟨"/posts/a/", "/posts/", "general", none, [], none, 1⟩]⟩ :
        SiteState).addDoc
          ⟨"/posts/b/", "/posts/", "general", none, [], none, 2⟩).posts
          none none parentQ none [] asc).2 =
        ((⟨[⟨"/posts/a/", "/posts/", "general", none, [], none, 1⟩],
            some [⟨"/posts/a/", "/posts/", "general", none, [], none, 1⟩]⟩ :
          SiteState).posts none none parentQ none [] asc).2) :=
  c9_snapshot_not_invalidated _ _ _ rfl

/-- A classification rule of Phase (src/plugins/commands/build.py lines
310-311): add_task appends (pattern, task) pairs in registration order.
The anchored case-insensitive regex test
re.search with the pattern wrapped in anchors and IGNORECASE (line 321)
runs in the external re module and is modelled by the Boolean predicate
accepts; task is the handler (the debug wrapper around it only logs and
forwards the call). -/
structure Rule where
  accepts : String → Bool
  task : String → Except String Info

/-- The inner loop of Phase.process (src/plugins/commands/build.py lines
320-329): rules are tested in registration order and the loop breaks at
the first match. -/
def firstMatch (rules : List Rule) (relpath : String) : Option Rule :=
  match rules with
  | [] => none
  | r :: rest => if r.accepts relpath then some r else firstMatch rest relpath

/-- os.path.join of the walk root and the relative path (find_files yields
(root, dirname, basename) triples; the dirname and basename are modelled
joined into one relative path). -/
def joinPath (root relpath : String) : String :=
  root ++ "/" ++ relpath

/-- One file of the Phase.process walk: the first matching rule feeds
tracker.add with the absolute path, the handler, and the file mtime (add
is called with mtime None and resolves it from the file system, modelled
by fsMtime); a file matching no rule leaves the tracker untouched. -/
def processStep (root : String) (rules : List Rule)
    (fsMtime : String → Fingerprint) (t : Tracker) (rel : String) :
    Tracker :=
  match firstMatch rules rel with
  | some r => t.add (joinPath root rel) r.task (fsMtime (joinPath root rel))
  | none => t

/-- Phase.process (src/plugins/commands/build.py lines 317-330): walk the
sorted file list, dispatch each file by first matching rule into the
tracker, then commit. -/
def Phase.process (root : String) (rules : List Rule) (files : List String)
    (fsMtime : String → Fingerprint) (cache0 : Cache) :
    Except String CommitResult :=
  (files.foldl (processStep root rules fsMtime)
    (Tracker.fromCache cache0)).commit

theorem firstMatch_append (pre : List Rule) (r : Rule) (post : List Rule)
    (rel : String) (hpre : ∀ p ∈ pre, p.accepts rel = false)
    (hr : r.accepts rel = true) :
    firstMatch (pre ++ r :: post) rel = some r := by
  induction pre with
  | nil => simp [firstMatch, hr]
  | cons p ps ih =>
      rw [List.cons_append]
      simp only [firstMatch, hpre p (by simp)]
      exact ih (fun q hq => hpre q (by simp [hq]))

theorem firstMatch_none (rules : List Rule) (rel : String)
    (h : ∀ p ∈ rules, p.accepts rel = false) :
    firstMatch rules rel = none := by
  induction rules with
  | nil => rfl
  | cons p ps ih =>
      simp only [firstMatch, h p (by simp)]
      exact ih (fun q hq => h q (by simp [hq]))

/-- C8: first-match-wins dispatch.  For every file of the Phase.process
walk, the rules are tested in registration order: when the rules before r
do not match the relative path and r does, the processing step for that
file is exactly tracker.add with the handler of r, whatever rules follow r
(they are never consulted); and a file matching no rule leaves the tracker
unchanged, so it is never added. -/
theorem c8_first_match_wins (root : String)
    (fsMtime : String → Fingerprint) (rel : String) (t : Tracker) :
    (∀ pre r post, (∀ p ∈ pre, p.accepts rel = false) →
      r.accepts rel = true →
      processStep root (pre ++ r :: post) fsMtime t rel =
        t.add (joinPath root rel) r.task (fsMtime (joinPath root rel))) ∧
    (∀ rules, (∀ p ∈ rules, p.accepts rel = false) →
      processStep root rules fsMtime t rel = t) := by
  constructor
  · intro pre r post hpre hr
    unfold processStep
    rw [firstMatch_append pre r post rel hpre hr]
  · intro rules h
    unfold processStep
    rw [firstMatch_none rules rel h]

/-- C8 witness: three rules of which the second and third both match; the
step runs the second rule only, and a file matching no rule is not
added. -/
theorem c8_first_match_wins_witness :
    (processStep "/site" [⟨fun _ => false, fun _ => Except.ok {}⟩,
        ⟨fun _ => true, fun _ => Except.ok { files := ["second"] }⟩,
        ⟨fun _ => true, fun _ => Except.ok { files := ["third"] }⟩]
      (fun _ => Fingerprint.num 1) (Tracker.fromCache []) "a.md" =
      (Tracker.fromCache []).add (joinPath "/site" "a.md")
        (fun _ => Except.ok { files := ["second"] })
        ((fun _ => Fingerprint.num 1) (joinPath "/site" "a.md"))) ∧
    (processStep "/site" [⟨fun _ => false, fun _ => Except.ok {}⟩]
      (fun _ => Fingerprint.num 1) (Tracker.fromCache []) "b.bin" =
      Tracker.fromCache []) :=
  ⟨(c8_first_match_wins "/site" (fun _ => Fingerprint.num 1) "a.md"
      (Tracker.fromCache [])).1
    [⟨fun _ => false, fun _ => Except.ok {}⟩]
    ⟨fun _ => true, fun _ => Except.ok { files := ["second"] }⟩
    [⟨fun _ => true, fun _ => Except.ok { files := ["third"] }⟩]
    (by intro p hp; rw [List.mem_singleton] at hp; subst hp; rfl) rfl,
   (c8_first_match_wins "/site" (fun _ => Fingerprint.num 1) "b.bin"
      (Tracker.fromCache [])).2
    [⟨fun _ => false, fun _ => Except.ok {}⟩]
    (by intro p hp; rw [List.mem_singleton] at hp; subst hp; rfl)⟩

/-- C1 witness: a first run (empty render cache) over one document renders
it and persists the fresh query set and digest. -/
theorem c1_render_cache_state_machine_witness :
    ∃ r, renderPhase [⟨"/a/", "/", "general", none, [], none, 1⟩] []
        (fun d => d.url) (fun _ => []) [] = Except.ok r ∧
      (("/a/" : String),
        renderInfo [⟨"/a/", "/", "general", none, [], none, 1⟩]
          (loadSnap [⟨"/a/", "/", "general", none, [], none, 1⟩])
          (templateFp []) (fun d => d.url) (fun _ => [])
          ⟨"/a/", "/", "general", none, [], none, 1⟩) ∈ r.ran ∧
      dictGet "/a/" r.cache = some
        ⟨digest (templateFp []) ⟨"/a/", "/", "general", none, [], none, 1⟩
          ((renderQT [⟨"/a/", "/", "general", none, [], none, 1⟩]
            (loadSnap [⟨"/a/", "/", "general", none, [], none, 1⟩])
            (fun _ => []) ⟨"/a/", "/", "general", none, [], none, 1⟩).map
              Prod.snd),
        renderInfo [⟨"/a/", "/", "general", none, [], none, 1⟩]
          (loadSnap [⟨"/a/", "/", "general", none, [], none, 1⟩])
          (templateFp []) (fun d => d.url) (fun _ => [])
          ⟨"/a/", "/", "general", none, [], none, 1⟩⟩ :=
  (c1_render_cache_state_machine
    [⟨"/a/", "/", "general", none, [], none, 1⟩] [] (fun d => d.url)
    (fun _ => []) [] (by simp)
    ⟨"/a/", "/", "general", none, [], none, 1⟩ (by decide)).2
    (fun en hen => absurd hen (by simp [dictGet]))

end InContext
